import Mathlib

/-!
# Verification of the CHZZK-Chat-Monitor keyword-detection core

Shallow embedding of the keyword policy, detection engine, session loop
(`run.py`), the configuration merge (`run.py` / `gui.py`) and the
configuration store (`config_store.py`).

Strings are modelled as lists of Unicode code points (`List Nat`).  The
case mapping and the word-character class model the behaviour of Python's
`str.lower` and the regex class `\w` on the ASCII range, which is the
range all the specification's examples and all configuration defaults use.
Event timestamps are kept in integer milliseconds (the raw `msgTime`):
the source stores `ts = msgTime / 1000.0` seconds in the window deque and
evicts on `t < ts - window_sec`, which is equivalent (exactly, by scaling
with 1000) to the millisecond comparison `m < mts - 1000 * window_sec`
used here; float rounding is not modelled.
-/

/-- A string as a list of Unicode code points. -/
abbrev Str := List Nat

/-- Code points of a Lean string literal, for concrete test inputs. -/
def strCodes (s : String) : Str := s.toList.map Char.toNat

/-- ASCII case-folding of one code point: models Python `str.lower` on the
ASCII range (uppercase letters 65–90 map to 97–122, all else unchanged). -/
def toLowerCode (c : Nat) : Nat :=
  if 65 ≤ c ∧ c ≤ 90 then c + 32 else c

/-- Case-folding of a whole string (`text.lower()` in `run.py`). -/
def lowerStr (s : Str) : Str := s.map toLowerCode

/-- Whitespace for `str.strip` (ASCII range). -/
def isSpaceCode (c : Nat) : Bool :=
  c == 32 || c == 9 || c == 10 || c == 13 || c == 11 || c == 12

/-- Python `s.strip()`: remove leading and trailing whitespace. -/
def stripCodes (s : Str) : Str :=
  ((s.dropWhile isSpaceCode).reverse.dropWhile isSpaceCode).reverse

/-- Word character for the regex lookarounds `(?<!\w)` / `(?!\w)` compiled
in `ChzzkChat.__init__`: digit, letter or underscore (ASCII range). -/
def isWordCode (c : Nat) : Bool :=
  (decide (48 ≤ c) && decide (c ≤ 57)) ||
  (decide (65 ≤ c) && decide (c ≤ 90)) ||
  (decide (97 ≤ c) && decide (c ≤ 122)) ||
  (c == 95)

/-- Whether `kw` is a prefix of `s`. -/
def isPrefixCodes : Str → Str → Bool
  | [], _ => true
  | _ :: _, [] => false
  | a :: as, b :: bs => a == b && isPrefixCodes as bs

/-- Whether `kw` occurs as a raw substring of `s`. -/
def isSubstrCodes (kw : Str) : Str → Bool
  | [] => isPrefixCodes kw []
  | b :: bs => isPrefixCodes kw (b :: bs) || isSubstrCodes kw bs

/-- Contains-mode match from `run.py` line 356: the (already lowercased)
keyword is a raw substring of the lowercased message (`kw in text_lower`). -/
def containsMatch (kw : Str) (text : Str) : Bool :=
  isSubstrCodes kw (lowerStr text)

/-- The keyword matches at the very start of `s`, case-insensitively:
models the compiled pattern body matching (regex `IGNORECASE`, keyword
lowercased at registration). -/
def matchAt (kw : Str) (s : Str) : Bool :=
  isPrefixCodes kw (lowerStr s)

/-- The lookbehind `(?<!\w)`: the preceding character, when there is one,
is not a word character. -/
def prevOkB : Option Nat → Bool
  | none => true
  | some c => !isWordCode c

/-- The head of a string, when there is one, is not a word character. -/
def headOkB : Str → Bool
  | [] => true
  | c :: _ => !isWordCode c

/-- The character following the matched keyword (if any) is not a word
character: regex lookahead `(?!\w)`. -/
def boundaryAfter (kw : Str) (s : Str) : Bool :=
  headOkB (s.drop kw.length)

/-- Exact-mode word-boundary search, carrying the previous character (for
the lookbehind `(?<!\w)`).  Models `pattern.search(text)` for the pattern
`(?<!\w)kw(?!\w)` with `re.IGNORECASE` compiled in `__init__` line 154. -/
def exactSearchFrom (kw : Str) (prev : Option Nat) : Str → Bool
  | [] => prevOkB prev && matchAt kw [] && boundaryAfter kw []
  | c :: rest =>
    (prevOkB prev && matchAt kw (c :: rest) && boundaryAfter kw (c :: rest))
    || exactSearchFrom kw (some c) rest

/-- Exact-mode match of a keyword against a message. -/
def exactMatch (kw : Str) (text : Str) : Bool :=
  exactSearchFrom kw none text

/-- First element of `l` satisfying `p`, in list order (models the
`for ... if ...: hit = kw; break` loops in `run.py` lines 350–358). -/
def firstMatch (p : Str → Bool) : List Str → Option Str
  | [] => none
  | kw :: rest => if p kw then some kw else firstMatch p rest

/-- Keyword resolution from `run.py` lines 349–358: all exact patterns are
tried first (in the iteration order of the compiled pattern map), and only
if none matches are the contains keywords tried in registration order. -/
def resolveKeyword (exactOrder : List Str) (containsList : List Str) (text : Str) : Option Str :=
  match firstMatch (fun kw => exactMatch kw text) exactOrder with
  | some kw => some kw
  | none => firstMatch (fun kw => containsMatch kw text) containsList

/-- The identity key a raw configured keyword is registered under
(`__init__` lines 38–46): `str(raw).strip().lower()`. -/
def registerKeyword (raw : Str) : Str := lowerStr (stripCodes raw)

/-- The effective previous character at a search position: the last
character of the prefix, or the inherited one when the prefix is empty. -/
def lastOpt (prev : Option Nat) (pre : Str) : Option Nat :=
  match pre.getLast? with
  | some c => some c
  | none => prev

/-- The keyword occurs in the message as a word-boundary-delimited token,
case-insensitively: some decomposition places it with no word character
immediately before or after. -/
def ExactOccurrence (kw t : Str) : Prop :=
  ∃ pre mid post, t = pre ++ mid ++ post ∧ lowerStr mid = kw ∧
    prevOkB (lastOpt none pre) = true ∧ headOkB post = true


/-! ## Python dictionaries as ordered association lists

A Python `dict` is modelled as an association list with distinct keys in
insertion order: lookup returns the first (unique) binding, update keeps
the key's position, insertion of a fresh key appends at the end. -/

/-- Python `d.get(k, dflt)`. -/
def alGet {α : Type} (d : List (Str × α)) (k : Str) (dflt : α) : α :=
  match d with
  | [] => dflt
  | (k', v) :: rest => if k' = k then v else alGet rest k dflt

/-- Python `d[k] = v`: update in place, or append a fresh key at the end. -/
def alSet {α : Type} (d : List (Str × α)) (k : Str) (v : α) : List (Str × α) :=
  match d with
  | [] => [(k, v)]
  | (k', v') :: rest => if k' = k then (k, v) :: rest else (k', v') :: alSet rest k v

/-! ## Detection engine (`ChzzkChat.run`, lines 345–394) -/

/-- The compiled keyword policy, immutable for the session lifetime
(`ChzzkChat.__init__` lines 29–155).  `exactOrder` is the iteration order
of the compiled pattern dict `keyword_patterns`; it is built by iterating
the Python *set* `self.keywords`, so its order relative to configuration
order is unspecified. -/
structure Policy where
  exactOrder : List Str
  containsList : List Str
  thresholds : List (Str × Nat)
  windows : List (Str × Nat)
  globalThr : Nat
  globalWin : Nat
  display : List (Str × Str)
deriving Repr

/-- The check `if self.keywords` — the keyword set is the union of exact and
contains keywords. -/
def Policy.hasKeywords (p : Policy) : Bool :=
  !p.exactOrder.isEmpty || !p.containsList.isEmpty

/-- Mutable per-keyword engine state (`keyword_counts`,
`keyword_hits_window`, and whether `keyword_log` is open). -/
structure EngineState where
  counts : List (Str × Nat)
  windowHits : List (Str × List ℤ)
  logOpen : Bool
deriving Repr, DecidableEq

/-- Initial cumulative counts (`__init__` line 159):
`{k: stored_counts.get(k, 0) for k in self.keywords}`. -/
def initCounts (keywords : List Str) (stored : List (Str × Nat)) : List (Str × Nat) :=
  keywords.map (fun k => (k, alGet stored k 0))

/-- Initial engine state (`__init__` lines 158–161): counts seeded from the
store, every window deque empty, the event log open iff keywords exist. -/
def initEngine (keywords : List Str) (stored : List (Str × Nat)) : EngineState :=
  { counts := initCounts keywords stored
    windowHits := keywords.map (fun k => (k, []))
    logOpen := !keywords.isEmpty }

/-- The `while dq and dq[0] < cutoff: dq.popleft()` loop (lines 371–372):
drop entries from the front while strictly below the cutoff (all in
milliseconds). -/
def evict (cutoff : ℤ) : List ℤ → List ℤ
  | [] => []
  | t :: rest => if t < cutoff then evict cutoff rest else t :: rest

/-- Observable effects of the receive path, in emission order. -/
inductive Ev where
  /-- `save_counts(self.keyword_counts)` was invoked with this full map. -/
  | saveAttempt (counts : List (Str × Nat))
  /-- The `[KEYCOUNT]` system-log line (line 381). -/
  | keycountLog (label : Str) (windowSec : Nat) (count : Nat) (threshold : Nat)
  /-- One detection-record line appended to `keyword_times.log` (line 391). -/
  | recordLine (channelName : Str) (label : Str) (nickname : Str)
      (elapsed : Option ℤ) (msgText : Str)
  /-- The per-message chat line written by `logger.info` (line 343). -/
  | chatLog (nickname : Str) (msgText : Str)
  /-- The `PONG` reply to a `PING` frame (lines 301–306). -/
  | pongSent
  /-- A call of `self.connect()`. -/
  | connectAttempt
deriving Repr, DecidableEq

/-- Is the event a system-log line (something written through `logger`)? -/
def Ev.isLogLine : Ev → Bool
  | .keycountLog _ _ _ _ => true
  | .chatLog _ _ => true
  | _ => false

/-- The elapsed-broadcast value recorded on a detection line
(lines 383–390): `max(0, int(ts_seconds - broadcast_start))`, or no value
when the start instant is unknown. -/
def elapsedOf (bstart : Option ℚ) (tsMs : ℤ) : Option ℤ :=
  match bstart with
  | none => none
  | some b => some (max 0 ⌊(tsMs : ℚ) / 1000 - b⌋)

/-- One keyword hit (`run.py` lines 360–394).  `saveOk = false` models
`save_counts` raising: the cumulative increment and window mutation have
already been applied in place, the exception propagates to the
`except Exception: pass` handler at line 393, so no log line and no record
line are emitted and nothing is rolled back.  Returns the mutated state
and the effects in emission order. -/
def recordHit (p : Policy) (saveOk : Bool) (channelName nickname : Str)
    (bstart : Option ℚ) (msgText : Str) (hit : Str) (ts : ℤ)
    (st : EngineState) : EngineState × List Ev :=
  let counts' := alSet st.counts hit (alGet st.counts hit 0 + 1)
  let winSec := alGet p.windows hit p.globalWin
  let dq' := evict (ts - 1000 * (winSec : ℤ)) (alGet st.windowHits hit [] ++ [ts])
  let st' : EngineState :=
    { counts := counts', windowHits := alSet st.windowHits hit dq', logOpen := st.logOpen }
  let wc := dq'.length
  let thr := alGet p.thresholds hit p.globalThr
  if thr ≤ wc then
    if saveOk then
      (st', Ev.saveAttempt counts' ::
            Ev.keycountLog (alGet p.display hit hit) winSec wc thr ::
            (if st.logOpen then
              [Ev.recordLine channelName (alGet p.display hit hit) nickname
                (elapsedOf bstart ts) msgText]
             else []))
    else
      (st', [Ev.saveAttempt counts'])
  else
    (st', [])

/-- Fold a sequence of hits for bookkeeping proofs: each element is
`(hit, timestamp, saveOk)`. -/
def runHitsSeq (p : Policy) (channelName nickname : Str) (bstart : Option ℚ)
    (msgText : Str) : EngineState → List (Str × ℤ × Bool) → EngineState
  | st, [] => st
  | st, (hit, ts, so) :: rest =>
      runHitsSeq p channelName nickname bstart msgText
        (recordHit p so channelName nickname bstart msgText hit ts st).1 rest

/-- Per-step observation of a single-keyword hit sequence: the window
count after eviction and whether the threshold fired. -/
def runHitsTrace (p : Policy) (hit : Str) : EngineState → List ℤ → List (Nat × Bool)
  | _, [] => []
  | st, ts :: rest =>
      let r := recordHit p true [] [] none [] hit ts st
      ((alGet r.1.windowHits hit []).length, !r.2.isEmpty) :: runHitsTrace p hit r.1 rest

/-! ## Session state machine (`ChzzkChat`) -/

/-- The session-owned state: the stop flag, connection-scoped fields
(replaced wholesale by `connect`), and the engine state with its policy. -/
structure SessionSt where
  stop : Bool
  chatChannelId : Str
  accessToken : Str
  extraToken : Str
  sid : Str
  sockConnected : Bool
  channelName : Str
  broadcastStart : Option ℚ
  policy : Policy
  eng : EngineState
deriving Repr

/-- Fresh server-assigned values obtained during a `connect` cycle
(re-resolved chat-channel id, tokens, session id, broadcast start). -/
structure FreshConn where
  cid : Str
  accTkn : Str
  extraTkn : Str
  sid : Str
  bstart : Option ℚ
deriving Repr

/-- Model of `ChzzkChat.connect` (lines 186–240): re-resolves the chat-channel id
and tokens, opens a socket, performs the handshake (obtaining a new `sid`)
and the recent-chat priming request, and refreshes the broadcast start
time.  No keyword/engine field is touched. -/
def connectFn (f : FreshConn) (s : SessionSt) : SessionSt :=
  { s with chatChannelId := f.cid, accessToken := f.accTkn, extraToken := f.extraTkn,
           sid := f.sid, sockConnected := true, broadcastStart := f.bstart }

/-- Model of `ChzzkChat.close` (lines 401–412): sets the stop flag, closes the
socket if connected, closes the keyword log. -/
def closeFn (s : SessionSt) : SessionSt :=
  { s with stop := true, sockConnected := false,
           eng := { s.eng with logOpen := false } }

/-- Model of `ChzzkChat.stop` (lines 414–416): set the stop flag, then `close`. -/
def stopFn (s : SessionSt) : SessionSt :=
  closeFn { s with stop := true }

/-- One entry of a `CHAT`/`DONATION` frame body. -/
structure ChatEntry where
  /-- `chat_data['uid'] == 'anonymous'`. -/
  anonymous : Bool
  /-- Parsed profile nickname; `none` models a missing/unparsable profile
  (the `except: continue` at lines 336–337). -/
  profileNickname : Option Str
  /-- `'msg' in chat_data`. -/
  hasMsg : Bool
  msgText : Str
  /-- `chat_data['msgTime']`, in milliseconds. -/
  msgTime : ℤ
  /-- Whether the `save_counts` call issued for this entry (if any) succeeds. -/
  saveOk : Bool
deriving Repr

/-- An inbound frame, classified by command code (lines 297–320). -/
inductive Frame where
  /-- A `PING`; carries the chat-channel id freshly fetched at line 308. -/
  | ping (currentCid : Str)
  | chat (entries : List ChatEntry)
  | donation (entries : List ChatEntry)
  /-- Any other command: ignored. -/
  | other
deriving Repr

/-- The anonymous-donor display name (line 325). -/
def anonNickname : Str := strCodes "익명의 후원자"

/-- Process the entries of one `CHAT`/`DONATION` frame (lines 322–394).
An anonymous entry without a `msg` key raises `KeyError` at line 342,
which the outer bare `except` (line 396) catches, abandoning the rest of
the frame; a non-anonymous entry with no profile or no `msg` is skipped
(`continue`). -/
def processEntries (s : SessionSt) : List ChatEntry → SessionSt × List Ev
  | [] => (s, [])
  | e :: rest =>
    if e.anonymous then
      if e.hasMsg then
        let evs₀ := [Ev.chatLog anonNickname e.msgText]
        let ts := e.msgTime
        let (eng', evs₁) :=
          if s.policy.hasKeywords then
            match resolveKeyword s.policy.exactOrder s.policy.containsList e.msgText with
            | some hit =>
                recordHit s.policy e.saveOk s.channelName anonNickname
                  s.broadcastStart e.msgText hit ts s.eng
            | none => (s.eng, [])
          else (s.eng, [])
        let (s', evs₂) := processEntries { s with eng := eng' } rest
        (s', evs₀ ++ evs₁ ++ evs₂)
      else
        -- `msg_text = chat_data["msg"]` raises; outer handler abandons the frame
        (s, [])
    else
      match e.profileNickname, e.hasMsg with
      | some nick, true =>
        let evs₀ := [Ev.chatLog nick e.msgText]
        let ts := e.msgTime
        let (eng', evs₁) :=
          if s.policy.hasKeywords then
            match resolveKeyword s.policy.exactOrder s.policy.containsList e.msgText with
            | some hit =>
                recordHit s.policy e.saveOk s.channelName nick
                  s.broadcastStart e.msgText hit ts s.eng
            | none => (s.eng, [])
          else (s.eng, [])
        let (s', evs₂) := processEntries { s with eng := eng' } rest
        (s', evs₀ ++ evs₁ ++ evs₂)
      | _, _ => processEntries s rest

/-- Dispatch of one parsed frame (lines 296–394). -/
def processFrame (fresh : FreshConn) (s : SessionSt) : Frame → SessionSt × List Ev
  | .ping currentCid =>
    if s.chatChannelId ≠ currentCid then
      (connectFn fresh s, [Ev.pongSent, Ev.connectAttempt])
    else
      (s, [Ev.pongSent])
  | .chat entries => processEntries s entries
  | .donation entries => processEntries s entries
  | .other => (s, [])

/-- Outcome of one (possibly blocking) `self.sock.recv()` call. -/
inductive RecvR where
  | ok (f : Frame)
  | errR
  | intr
deriving Repr

/-- The receive loop `ChzzkChat.run` (lines 275–399).  Each input is one
recv outcome, tagged with whether `stop()` was called (from the host
thread) after the previous outcome was consumed — in particular while this
recv was blocked; `stop()` closes the socket, which is what makes a
blocked recv raise.  The returned list is every effect the loop emits
until it terminates or exhausts the supplied outcomes. -/
def loopRun (fresh : FreshConn) : SessionSt → List (Bool × RecvR) → List Ev
  | _, [] => []
  | s, (sb, r) :: rest =>
    if s.stop then []                                  -- while not self._stop
    else
      let s1 := if sb then stopFn s else s
      match r with
      | .intr => []                                    -- except KeyboardInterrupt: break
      | .errR =>
        if s1.stop then []                             -- except: if self._stop: break
        else
          let s2 := connectFn fresh s1                 -- self.connect()
          match rest with
          | [] => [Ev.connectAttempt]
          | (sb2, r2) :: rest2 =>                      -- raw_message = self.sock.recv()
            let s3 := if sb2 then stopFn s2 else s2
            match r2 with
            | .ok f =>
              if s3.stop then [Ev.connectAttempt]      -- if self._stop: break
              else
                let pr := processFrame fresh s3 f
                Ev.connectAttempt :: (pr.2 ++ loopRun fresh pr.1 rest2)
            | .errR =>                                 -- raises into outer except
              if s3.stop then [Ev.connectAttempt]
              else Ev.connectAttempt :: loopRun fresh s3 rest2
            | .intr =>                                 -- caught by the outer bare except
              if s3.stop then [Ev.connectAttempt]
              else Ev.connectAttempt :: loopRun fresh s3 rest2
      | .ok f =>
        if s1.stop then []                             -- if self._stop: break
        else
          let pr := processFrame fresh s1 f
          pr.2 ++ loopRun fresh pr.1 rest

/-! ## Configuration merge at session start (`ChzzkChat.__init__` lines 48–98)

The environment overrides are modelled as already-parsed values: `none`
covers an unset, empty or non-digit variable (the `env and str(env).isdigit()`
guard), `some e` the parsed digit string. -/

/-- Python `x or d` on an optional integer: `None` and `0` are falsy. -/
def pyOrInt (v : Option ℤ) (d : ℤ) : ℤ :=
  match v with
  | none => d
  | some x => if x = 0 then d else x

/-- Merged global threshold (lines 48–55): start from
`config.get('global_threshold') or 1`, then overwrite with
`max(1, int(env))` whenever the environment variable holds digits. -/
def mergeGlobalThreshold (cfg : Option ℤ) (env : Option ℕ) : ℤ :=
  match env with
  | some e => max 1 (e : ℤ)
  | none => pyOrInt cfg 1

/-- Merged global window (lines 74–81), default 60. -/
def mergeGlobalWindow (cfg : Option ℤ) (env : Option ℕ) : ℤ :=
  match env with
  | some e => max 1 (e : ℤ)
  | none => pyOrInt cfg 60

/-- The per-keyword map built from the stored configuration (lines 58–62
and 84–88): keys lowercased (entries with whitespace-only keys dropped),
values clamped with `max(1, int(v))`. -/
def buildCfgMap (entries : List (Str × ℤ)) : List (Str × ℤ) :=
  entries.foldl
    (fun m kv =>
      if (stripCodes kv.1).isEmpty then m
      else alSet m (lowerStr kv.1) (max 1 kv.2))
    []

/-- Applying the environment JSON map on top (lines 63–72 and 89–98): each
digit-valued entry overwrites `map[str(k).lower()]`. -/
def applyEnvMap (base : List (Str × ℤ)) (env : List (Str × ℕ)) : List (Str × ℤ) :=
  env.foldl (fun m kv => alSet m (lowerStr kv.1) (max 1 (kv.2 : ℤ))) base

/-! ## Configuration store (`config_store.py`)

Python/JSON values are modelled by `PVal`; floats and booleans are not
modelled (no claim involves them).  Dictionary keys are strings, as in
every JSON document the store reads or writes. -/

/-- A Python value as it appears in the configuration store. -/
inductive PVal where
  | vstr (s : Str)
  | vint (n : ℤ)
  | vnone
  | vlist (xs : List PVal)
  | vdict (entries : List (Str × PVal))
deriving Repr

/-- A `", ".join`-style comma-separated concatenation. -/
def joinComma : List Str → Str
  | [] => []
  | [x] => x
  | x :: y :: rest => x ++ [44, 32] ++ joinComma (y :: rest)

mutual
/-- Python `str(v)` (for lists and dicts, `repr`-style with single-quoted
strings; its exact shape is irrelevant to every claim, only that such a
value stringifies to a non-empty bracketed text). -/
def pyStr : PVal → Str
  | .vstr s => s
  | .vint n => strCodes (toString n)
  | .vnone => strCodes "None"
  | .vlist xs => 91 :: (joinComma (pyReprList xs) ++ [93])
  | .vdict es => 123 :: (joinComma (pyReprDict es) ++ [125])

/-- Python `repr(v)`. -/
def pyRepr : PVal → Str
  | .vstr s => 39 :: (s ++ [39])
  | .vint n => strCodes (toString n)
  | .vnone => strCodes "None"
  | .vlist xs => 91 :: (joinComma (pyReprList xs) ++ [93])
  | .vdict es => 123 :: (joinComma (pyReprDict es) ++ [125])

def pyReprList : List PVal → List Str
  | [] => []
  | v :: rest => pyRepr v :: pyReprList rest

def pyReprDict : List (Str × PVal) → List Str
  | [] => []
  | (k, v) :: rest => (39 :: (k ++ [39, 58, 32]) ++ pyRepr v) :: pyReprDict rest
end

/-- Digits-only parse of a non-empty string. -/
def parseDigits : Str → Option ℕ
  | [] => none
  | l => parseDigitsAux l 0
where
  parseDigitsAux : Str → ℕ → Option ℕ
    | [], acc => some acc
    | c :: rest, acc =>
      if 48 ≤ c ∧ c ≤ 57 then parseDigitsAux rest (acc * 10 + (c - 48)) else none

/-- Python `int(s)` on a string: surrounding whitespace and one sign allowed
(digit-group underscores are not modelled). -/
def pyIntOfStr (s : Str) : Option ℤ :=
  match stripCodes s with
  | 43 :: rest => (parseDigits rest).map Int.ofNat
  | 45 :: rest => (parseDigits rest).map (fun n => -(n : ℤ))
  | t => (parseDigits t).map Int.ofNat

/-- Python `int(v)`: succeeds on integers and integer-shaped strings, raises
(`none`) on everything else. -/
def pyToInt : PVal → Option ℤ
  | .vint n => some n
  | .vstr s => pyIntOfStr s
  | _ => none

/-- Model of `_ensure_positive_int(value, default)` (`config_store.py` lines 19–24). -/
def ensure_positive_int (v : PVal) (dflt : ℤ) : ℤ :=
  match pyToInt v with
  | some i => if 1 ≤ i then i else dflt
  | none => dflt

/-- Python `dict.get(k)` on a raw JSON object; on duplicate keys the last binding
wins, as in `json.loads`. -/
def dictGet? (es : List (Str × PVal)) (k : Str) : Option PVal :=
  es.foldl (fun acc kv => if kv.1 = k then some kv.2 else acc) none

/-- Python `dict.get(k, d)`. -/
def dictGetD (es : List (Str × PVal)) (k : Str) (d : PVal) : PVal :=
  (dictGet? es k).getD d

/-- One sanitized `contains_keywords` entry. -/
structure ContainsEntry where
  keyword : Str
  threshold : ℤ
  window : ℤ
deriving Repr, DecidableEq

/-- The sanitized configuration — the exact dict shape `_sanitize_config`
constructs (lines 97–105). -/
structure Config where
  keywords : List Str
  global_threshold : Option ℤ
  per_keyword_thresholds : List (Str × ℤ)
  global_window : Option ℤ
  per_keyword_windows : List (Str × ℤ)
  contains_keywords : List ContainsEntry
deriving Repr, DecidableEq

/-- Split on commas (`keywords.split(',')`). -/
def splitComma (s : Str) : List Str :=
  splitCommaAux s []
where
  splitCommaAux : Str → Str → List Str
    | [], acc => [acc.reverse]
    | c :: rest, acc =>
      if c == 44 then acc.reverse :: splitCommaAux rest []
      else splitCommaAux rest (c :: acc)

/-- The `keywords` field of `_sanitize_config` (lines 110–114). -/
def sanitizeKeywords (v : Option PVal) : List Str :=
  match v with
  | some (.vlist ks) =>
      (ks.map (fun k => stripCodes (pyStr k))).filter (fun s => !s.isEmpty)
  | some (.vstr s) =>
      ((splitComma s).map stripCodes).filter (fun s => !s.isEmpty)
  | _ => []

/-- An optional global value (lines 116–118 and 129–131): kept `None` when
absent or `None`, otherwise forced to a positive integer. -/
def sanitizeGlobal (v : Option PVal) (dflt : ℤ) : Option ℤ :=
  match v with
  | none => none
  | some .vnone => none
  | some w => some (ensure_positive_int w dflt)

/-- A per-keyword integer map (lines 120–127 and 133–140): keys stripped,
whitespace-only keys dropped, values forced positive. -/
def sanitizeIntMap (v : Option PVal) (dflt : ℤ) : List (Str × ℤ) :=
  match v with
  | some (.vdict es) =>
      es.foldl
        (fun m kv =>
          let key := stripCodes kv.1
          if key.isEmpty then m else alSet m key (ensure_positive_int kv.2 dflt))
        []
  | _ => []

/-- The `contains_keywords` list (lines 142–175): dict or string items,
empty keywords dropped, de-duplicated by lowercased keyword keeping the
first occurrence. -/
def sanitizeContains : List PVal → List Str → List ContainsEntry
  | [], _ => []
  | item :: rest, seen =>
    match item with
    | .vdict es =>
      let kw := stripCodes (pyStr (dictGetD es (strCodes "keyword") (.vstr [])))
      if kw.isEmpty then sanitizeContains rest seen
      else if lowerStr kw ∈ seen then sanitizeContains rest seen
      else
        { keyword := kw
          threshold := ensure_positive_int (dictGetD es (strCodes "threshold") (.vint 1)) 1
          window := ensure_positive_int (dictGetD es (strCodes "window") (.vint 60)) 60 }
          :: sanitizeContains rest (lowerStr kw :: seen)
    | .vstr s =>
      let kw := stripCodes s
      if kw.isEmpty then sanitizeContains rest seen
      else if lowerStr kw ∈ seen then sanitizeContains rest seen
      else
        { keyword := kw, threshold := 1, window := 60 }
          :: sanitizeContains rest (lowerStr kw :: seen)
    | _ => sanitizeContains rest seen

/-- Model of `_sanitize_config` (lines 97–177). -/
def sanitize_config (raw : PVal) : Config :=
  let es := match raw with | .vdict es => es | _ => []
  { keywords := sanitizeKeywords (dictGet? es (strCodes "keywords"))
    global_threshold := sanitizeGlobal (dictGet? es (strCodes "global_threshold")) 1
    per_keyword_thresholds := sanitizeIntMap (dictGet? es (strCodes "per_keyword_thresholds")) 1
    global_window := sanitizeGlobal (dictGet? es (strCodes "global_window")) 60
    per_keyword_windows := sanitizeIntMap (dictGet? es (strCodes "per_keyword_windows")) 60
    contains_keywords :=
      match dictGet? es (strCodes "contains_keywords") with
      | some (.vlist items) => sanitizeContains items []
      | _ => [] }

/-- Model of `_sanitize_counts` (lines 180–195): keys stripped then lowercased,
non-integer values dropped, negatives clamped to 0. -/
def sanitize_counts (raw : PVal) : List (Str × ℤ) :=
  match raw with
  | .vdict es =>
      es.foldl
        (fun m kv =>
          let key := stripCodes kv.1
          if key.isEmpty then m
          else
            match pyToInt kv.2 with
            | none => m
            | some i => alSet m (lowerStr key) (if i < 0 then 0 else i))
        []
  | _ => []

/-- An optional integer as its JSON value. -/
def optIntToPVal (o : Option ℤ) : PVal :=
  match o with
  | none => .vnone
  | some n => .vint n

/-- The JSON value `_write_data` serializes for a sanitized config. -/
def configToPVal (c : Config) : PVal :=
  .vdict
    [ (strCodes "keywords", .vlist (c.keywords.map .vstr))
    , (strCodes "global_threshold", optIntToPVal c.global_threshold)
    , (strCodes "per_keyword_thresholds",
        .vdict (c.per_keyword_thresholds.map (fun kv => (kv.1, PVal.vint kv.2))))
    , (strCodes "global_window", optIntToPVal c.global_window)
    , (strCodes "per_keyword_windows",
        .vdict (c.per_keyword_windows.map (fun kv => (kv.1, PVal.vint kv.2))))
    , (strCodes "contains_keywords",
        .vlist (c.contains_keywords.map (fun e =>
          .vdict [ (strCodes "keyword", .vstr e.keyword)
                 , (strCodes "threshold", .vint e.threshold)
                 , (strCodes "window", .vint e.window) ]))) ]

/-- The JSON value for a counts map. -/
def countsToPVal (m : List (Str × ℤ)) : PVal :=
  .vdict (m.map (fun kv => (kv.1, PVal.vint kv.2)))

/-- The in-memory shape `{'config': ..., 'counts': ...}`. -/
structure StoreData where
  config : Config
  counts : List (Str × ℤ)
deriving Repr, DecidableEq

/-- Model of `_sanitize_data` (lines 198–208). -/
def sanitize_data (raw : PVal) : StoreData :=
  match raw with
  | .vdict es =>
    if (dictGet? es (strCodes "config")).isSome ∨ (dictGet? es (strCodes "counts")).isSome then
      { config := sanitize_config (dictGetD es (strCodes "config") (.vdict []))
        counts := sanitize_counts (dictGetD es (strCodes "counts") (.vdict [])) }
    else
      { config := sanitize_config raw, counts := [] }
  | _ => { config := sanitize_config (.vdict []), counts := [] }

/-- Model of `_load_data` (lines 221–245) when the settings file exists and parses;
`legacyCounts` models `_load_legacy_counts()`, substituted only when the
parsed counts are empty. -/
def load_data (legacyCounts : List (Str × ℤ)) (file : PVal) : StoreData :=
  let d := sanitize_data file
  if d.counts = [] ∧ legacyCounts ≠ [] then { d with counts := legacyCounts } else d

/-- Model of `_write_data` (lines 248–253): re-sanitize both parts and serialize. -/
def write_data (d : StoreData) : PVal :=
  .vdict
    [ (strCodes "config", configToPVal (sanitize_config (configToPVal d.config)))
    , (strCodes "counts", countsToPVal (sanitize_counts (countsToPVal d.counts))) ]

/-- Model of `load_config` (lines 256–257). -/
def load_config (legacyCounts : List (Str × ℤ)) (file : PVal) : Config :=
  (load_data legacyCounts file).config

/-- Model of `save_config` (lines 260–263): returns the new file contents. -/
def save_config (legacyCounts : List (Str × ℤ)) (c : PVal) (file : PVal) : PVal :=
  write_data { load_data legacyCounts file with config := sanitize_config c }

/-- Model of `save_counts` (lines 270–273): returns the new file contents. -/
def save_counts (legacyCounts : List (Str × ℤ)) (m : PVal) (file : PVal) : PVal :=
  write_data { load_data legacyCounts file with counts := sanitize_counts m }

/-- The call `save_counts(self.keyword_counts)`: the engine's counts map as the
JSON value handed to the store. -/
def countsNatToPVal (m : List (Str × Nat)) : PVal :=
  .vdict (m.map (fun kv => (kv.1, PVal.vint (kv.2 : ℤ))))

/-- A string in the store's normal form: stripped and non-empty. -/
def StrSanitized (s : Str) : Prop := stripCodes s = s ∧ s ≠ []

/-- A per-keyword integer map in the store's normal form. -/
def IntMapSanitized (m : List (Str × ℤ)) : Prop :=
  (∀ kv ∈ m, StrSanitized kv.1 ∧ 1 ≤ kv.2) ∧ (m.map Prod.fst).Nodup

/-- A `contains_keywords` list in the store's normal form: sane entries,
de-duplicated by lowercased keyword. -/
def ContainsSanitized (l : List ContainsEntry) : Prop :=
  (∀ e ∈ l, StrSanitized e.keyword ∧ 1 ≤ e.threshold ∧ 1 ≤ e.window)
  ∧ (l.map (fun e => lowerStr e.keyword)).Nodup

/-- The sanitized-form invariant `_sanitize_config` establishes. -/
def ConfigSanitized (c : Config) : Prop :=
  (∀ k ∈ c.keywords, StrSanitized k)
  ∧ (∀ n, c.global_threshold = some n → 1 ≤ n)
  ∧ IntMapSanitized c.per_keyword_thresholds
  ∧ (∀ n, c.global_window = some n → 1 ≤ n)
  ∧ IntMapSanitized c.per_keyword_windows
  ∧ ContainsSanitized c.contains_keywords

/-! ## Concrete test fixtures -/

/-- A single exact keyword `win` with threshold 1 and window 15. -/
def winPolicyThr1 : Policy :=
  { exactOrder := [strCodes "win"], containsList := []
    thresholds := [(strCodes "win", 1)], windows := [(strCodes "win", 15)]
    globalThr := 1, globalWin := 60, display := [(strCodes "win", strCodes "win")] }

/-- A single exact keyword `win` with threshold 2 and window 15 — the
scenario of the specification's sliding-window example. -/
def winPolicyThr2 : Policy :=
  { exactOrder := [strCodes "win"], containsList := []
    thresholds := [(strCodes "win", 2)], windows := [(strCodes "win", 15)]
    globalThr := 1, globalWin := 60, display := [(strCodes "win", strCodes "win")] }

/-- Fresh connection values delivered by a reconnect. -/
def sampleFresh : FreshConn :=
  { cid := strCodes "cid2", accTkn := strCodes "tok2", extraTkn := strCodes "ext2"
    sid := strCodes "sid2", bstart := none }

/-- A live session mid-stream: one keyword with a non-empty window deque. -/
def sampleSession : SessionSt :=
  { stop := false, chatChannelId := strCodes "cid1", accessToken := strCodes "tok1"
    extraToken := strCodes "ext1", sid := strCodes "sid1", sockConnected := true
    channelName := strCodes "chan", broadcastStart := none, policy := winPolicyThr2
    eng := { counts := [(strCodes "win", 5)], windowHits := [(strCodes "win", [3])]
             logOpen := true } }

/-! ## Helper lemmas -/

theorem alGet_alSet_self {α : Type} (d : List (Str × α)) (k : Str) (v : α) (dflt : α) :
    alGet (alSet d k v) k dflt = v := by
  induction d with
  | nil => simp [alSet, alGet]
  | cons kv rest ih =>
    obtain ⟨k', v'⟩ := kv
    by_cases h : k' = k
    · simp [alSet, alGet, h]
    · simp [alSet, alGet, h, ih]

theorem alGet_alSet_ne {α : Type} (d : List (Str × α)) (k k' : Str) (v : α) (dflt : α)
    (h : k ≠ k') : alGet (alSet d k v) k' dflt = alGet d k' dflt := by
  induction d with
  | nil => simp [alSet, alGet, h]
  | cons kv rest ih =>
    obtain ⟨k₀, v₀⟩ := kv
    by_cases h₀ : k₀ = k
    · subst h₀
      simp [alSet, alGet, h]
    · simp [alSet, alGet, h₀, ih]

theorem evict_eq_filter (cutoff : ℤ) (l : List ℤ) (h : l.Sorted (· ≤ ·)) :
    evict cutoff l = l.filter (fun t => decide (cutoff ≤ t)) := by
  induction l with
  | nil => rfl
  | cons a l ih =>
    rw [List.sorted_cons] at h
    obtain ⟨ha, hl⟩ := h
    by_cases hc : a < cutoff
    · rw [List.filter_cons_of_neg (by simpa using not_le.mpr hc)]
      simpa [evict, hc] using ih hl
    · rw [List.filter_cons_of_pos (by simpa using not_lt.mp hc)]
      rw [show evict cutoff (a :: l) = a :: l by simp [evict, hc]]
      rw [List.filter_eq_self.mpr]
      intro b hb
      simpa using le_trans (not_lt.mp hc) (ha b hb)

theorem firstMatch_eq_some {p : Str → Bool} {l : List Str} {k : Str}
    (h : firstMatch p l = some k) : k ∈ l ∧ p k = true := by
  induction l with
  | nil => simp [firstMatch] at h
  | cons a rest ih =>
    by_cases hp : p a
    · simp [firstMatch, hp] at h
      subst h
      exact ⟨List.mem_cons_self a rest, hp⟩
    · simp [firstMatch, hp] at h
      obtain ⟨hm, hk⟩ := ih h
      exact ⟨List.mem_cons_of_mem a hm, hk⟩

theorem firstMatch_eq_none {p : Str → Bool} {l : List Str} :
    firstMatch p l = none ↔ ∀ k ∈ l, p k = false := by
  induction l with
  | nil => simp [firstMatch]
  | cons a rest ih =>
    by_cases hp : p a
    · simp [firstMatch, hp]
    · simp only [firstMatch, if_neg hp, ih]
      constructor
      · intro h
        intro k hk
        rcases List.mem_cons.mp hk with rfl | hk'
        · simpa using hp
        · exact h k hk'
      · intro h k hk
        exact h k (List.mem_cons_of_mem a hk)

theorem firstMatch_isSome_of_mem {p : Str → Bool} {l : List Str} {k : Str}
    (hm : k ∈ l) (hp : p k = true) : (firstMatch p l).isSome := by
  induction l with
  | nil => simp at hm
  | cons a rest ih =>
    by_cases ha : p a
    · simp [firstMatch, ha]
    · rcases List.mem_cons.mp hm with h | h
      · subst h
        exact absurd hp (by simpa using ha)
      · simpa [firstMatch, ha] using ih h

theorem applyEnvMap_not_mem (base : List (Str × ℤ)) (env : List (Str × ℕ)) (key : Str) (d : ℤ)
    (h : key ∉ env.map (fun kv => lowerStr kv.1)) :
    alGet (applyEnvMap base env) key d = alGet base key d := by
  induction env generalizing base with
  | nil => rfl
  | cons kv env ih =>
    obtain ⟨k₀, v₀⟩ := kv
    simp only [List.map_cons, List.mem_cons] at h
    push_neg at h
    have hstep : applyEnvMap base ((k₀, v₀) :: env)
        = applyEnvMap (alSet base (lowerStr k₀) (max 1 (v₀ : ℤ))) env := rfl
    rw [hstep, ih _ h.2, alGet_alSet_ne _ _ _ _ _ (fun he => h.1 he.symm)]

/-- C8: `stop()` sets the stop flag, closes the connection and the event
log; a stopped session is terminal (its loop emits nothing, so no
DetectionRecord and no reconnection attempt); and a stop delivered at any
receive point — in particular while the loop is blocked in `recv`, which
`stop()` unblocks by closing the socket — terminates the loop with no
further emitted event of any kind. -/
theorem stop_terminates_spec :
    (∀ s : SessionSt, (stopFn s).stop = true ∧ (stopFn s).sockConnected = false
        ∧ (stopFn s).eng.logOpen = false)
    ∧ (∀ (f : FreshConn) (s : SessionSt) (ins : List (Bool × RecvR)),
        loopRun f (stopFn s) ins = [])
    ∧ (∀ (f : FreshConn) (s : SessionSt) (r : RecvR) (rest : List (Bool × RecvR)),
        loopRun f s ((true, r) :: rest) = []) := by
  refine ⟨fun s => ⟨rfl, rfl, rfl⟩, fun f s ins => ?_, fun f s r rest => ?_⟩
  · cases ins with
    | nil => rfl
    | cons h t =>
      obtain ⟨sb, r⟩ := h
      simp [loopRun, stopFn, closeFn]
  · by_cases hs : s.stop
    · simp [loopRun, hs]
    · cases r <;> simp [loopRun, hs, stopFn, closeFn]

/-- C9 counterexample: with stored `global_threshold = 2` and environment
override `KEYWORD_THRESHOLD=7`, the merged global threshold is 7, not the
stored 2 — the runtime override wins, refuting "stored values take
precedence over runtime overrides". -/
theorem config_merge_counterexample :
    mergeGlobalThreshold (some 2) (some 7) = 7 ∧ (7 : ℤ) ≠ 2 := by decide

/-- C9 (amended): when the same value is present both in the stored
configuration and as a runtime (environment) override, the merged policy
uses the override: a digit-valued environment variable always overwrites
the stored global threshold/window, the stored value is used only when the
override is absent, and an environment JSON entry overwrites the
corresponding per-keyword map entry (entries it does not mention keep the
stored value). -/
theorem config_merge_spec :
    (∀ (cfg : Option ℤ) (e : ℕ), mergeGlobalThreshold cfg (some e) = max 1 (e : ℤ))
    ∧ (∀ cfg : Option ℤ, mergeGlobalThreshold cfg none = pyOrInt cfg 1)
    ∧ (∀ (cfg : Option ℤ) (e : ℕ), mergeGlobalWindow cfg (some e) = max 1 (e : ℤ))
    ∧ (∀ cfg : Option ℤ, mergeGlobalWindow cfg none = pyOrInt cfg 60)
    ∧ (∀ (base : List (Str × ℤ)) (env : List (Str × ℕ)) (key : Str) (d : ℤ),
        key ∉ env.map (fun kv => lowerStr kv.1) →
        alGet (applyEnvMap base env) key d = alGet base key d)
    ∧ (∀ (base : List (Str × ℤ)) (env₁ env₂ : List (Str × ℕ)) (k : Str) (v : ℕ) (d : ℤ),
        lowerStr k ∉ env₂.map (fun kv => lowerStr kv.1) →
        alGet (applyEnvMap base (env₁ ++ (k, v) :: env₂)) (lowerStr k) d = max 1 (v : ℤ)) := by
  refine ⟨fun cfg e => rfl, fun cfg => rfl, fun cfg e => rfl, fun cfg => rfl,
    fun base env key d h => applyEnvMap_not_mem base env key d h,
    fun base env₁ env₂ k v d h => ?_⟩
  have hsplit : applyEnvMap base (env₁ ++ (k, v) :: env₂)
      = applyEnvMap (alSet (applyEnvMap base env₁) (lowerStr k) (max 1 (v : ℤ))) env₂ := by
    simp [applyEnvMap, List.foldl_append]
  rw [hsplit, applyEnvMap_not_mem _ _ _ _ h, alGet_alSet_self]

/-- C9 witness for the per-keyword conjuncts of `config_merge_spec`. -/
theorem config_merge_spec_witness :
    (strCodes "b" ∉ ([((strCodes "a"), 3)] : List (Str × ℕ)).map (fun kv => lowerStr kv.1)
      ∧ alGet (applyEnvMap [(strCodes "b", 9)] [((strCodes "a"), 3)]) (strCodes "b") 0 = 9)
    ∧ (lowerStr (strCodes "a") ∉ ([] : List (Str × ℕ)).map (fun kv => lowerStr kv.1)
      ∧ alGet (applyEnvMap [(strCodes "a", 9)] ([] ++ (strCodes "a", 3) :: [])) (lowerStr (strCodes "a")) 0
          = max 1 ((3 : ℕ) : ℤ)) :=
  ⟨⟨by decide, by
      rw [config_merge_spec.2.2.2.2.1 [(strCodes "b", 9)] [((strCodes "a"), 3)]
        (strCodes "b") 0 (by decide)]
      decide⟩,
   ⟨by decide,
    config_merge_spec.2.2.2.2.2 [(strCodes "a", 9)] [] [] (strCodes "a") 3 0 (by decide)⟩⟩

/-- C2 counterexample: the exact-rule evaluation order is the iteration
order of the Python set `self.keywords`, not a stable registration order:
for the same rule set `{aa, bb}` two set-iteration orders (permutations of
one another) attribute the message `"aa bb"` to different keywords, so the
attribution is not determined by registration order and is not
reproducible across runs (string hashing is randomized). -/
theorem resolution_order_counterexample :
    resolveKeyword [strCodes "aa", strCodes "bb"] [] (strCodes "aa bb") = some (strCodes "aa")
    ∧ resolveKeyword [strCodes "bb", strCodes "aa"] [] (strCodes "aa bb") = some (strCodes "bb")
    ∧ List.Perm [strCodes "aa", strCodes "bb"] [strCodes "bb", strCodes "aa"]
    ∧ strCodes "aa" ≠ strCodes "bb" :=
  ⟨by decide, by decide, List.Perm.swap _ _ _, by decide⟩

/-- C2 (amended): for every message all Exact rules are evaluated first —
in the (unspecified) iteration order of the compiled pattern map, first
match returned — and only if no Exact rule matches are the Contains rules
evaluated in stable registration order, first match returned; at most one
keyword is attributed, and a message matching both an Exact and a Contains
rule is attributed to an Exact rule. -/
theorem resolution_order_spec (eo cl : List Str) (t : Str) :
    (∀ k, firstMatch (fun kw => exactMatch kw t) eo = some k → resolveKeyword eo cl t = some k)
    ∧ ((∀ kw ∈ eo, exactMatch kw t = false) →
        resolveKeyword eo cl t = firstMatch (fun kw => containsMatch kw t) cl)
    ∧ (∀ k, resolveKeyword eo cl t = some k →
        (k ∈ eo ∧ exactMatch k t = true) ∨
        (k ∈ cl ∧ containsMatch k t = true ∧ ∀ kw ∈ eo, exactMatch kw t = false))
    ∧ (∀ ke kc, ke ∈ eo → exactMatch ke t = true → kc ∈ cl → containsMatch kc t = true →
        ∃ k, resolveKeyword eo cl t = some k ∧ k ∈ eo ∧ exactMatch k t = true) := by
  refine ⟨fun k h => by simp [resolveKeyword, h], fun h => ?_, fun k h => ?_, ?_⟩
  · have hn : firstMatch (fun kw => exactMatch kw t) eo = none :=
      firstMatch_eq_none.mpr h
    simp [resolveKeyword, hn]
  · rcases hE : firstMatch (fun kw => exactMatch kw t) eo with _ | k'
    · right
      rw [resolveKeyword, hE] at h
      obtain ⟨hm, hp⟩ := firstMatch_eq_some h
      exact ⟨hm, hp, firstMatch_eq_none.mp hE⟩
    · left
      rw [resolveKeyword, hE] at h
      obtain rfl : k' = k := by simpa using h
      exact firstMatch_eq_some hE
  · intro ke kc hke he hkc hc
    have hs : (firstMatch (fun kw => exactMatch kw t) eo).isSome :=
      firstMatch_isSome_of_mem hke he
    rcases hE : firstMatch (fun kw => exactMatch kw t) eo with _ | k₀
    · rw [hE] at hs
      simp at hs
    · obtain ⟨hm, hp⟩ := firstMatch_eq_some hE
      exact ⟨k₀, by simp [resolveKeyword, hE], hm, hp⟩

/-- C2 witness: a message matching both an Exact rule and a Contains rule
is attributed to the Exact rule. -/
theorem resolution_order_spec_witness :
    (strCodes "win" ∈ [strCodes "win"] ∧ exactMatch (strCodes "win") (strCodes "win pizza") = true
      ∧ strCodes "pizza" ∈ [strCodes "pizza"]
      ∧ containsMatch (strCodes "pizza") (strCodes "win pizza") = true)
    ∧ ∃ k, resolveKeyword [strCodes "win"] [strCodes "pizza"] (strCodes "win pizza") = some k
        ∧ k ∈ [strCodes "win"] ∧ exactMatch k (strCodes "win pizza") = true :=
  ⟨⟨by decide, by decide, by decide, by decide⟩,
    (resolution_order_spec [strCodes "win"] [strCodes "pizza"] (strCodes "win pizza")).2.2.2
      (strCodes "win") (strCodes "pizza") (by decide) (by decide) (by decide) (by decide)⟩

theorem recordHit_fst (p : Policy) (so : Bool) (cn nick : Str) (b : Option ℚ) (mt hit : Str)
    (ts : ℤ) (st : EngineState) :
    (recordHit p so cn nick b mt hit ts st).1 =
      { counts := alSet st.counts hit (alGet st.counts hit 0 + 1)
        windowHits := alSet st.windowHits hit
          (evict (ts - 1000 * ((alGet p.windows hit p.globalWin : ℕ) : ℤ)) (alGet st.windowHits hit [] ++ [ts]))
        logOpen := st.logOpen } := by
  simp only [recordHit]
  split
  · split
    · rfl
    · rfl
  · rfl

theorem recordHit_events (p : Policy) (so : Bool) (cn nick : Str) (b : Option ℚ) (mt hit : Str)
    (ts : ℤ) (st : EngineState) :
    (recordHit p so cn nick b mt hit ts st).2 =
      if alGet p.thresholds hit p.globalThr
          ≤ (evict (ts - 1000 * ((alGet p.windows hit p.globalWin : ℕ) : ℤ))
              (alGet st.windowHits hit [] ++ [ts])).length then
        if so then
          Ev.saveAttempt (alSet st.counts hit (alGet st.counts hit 0 + 1))
          :: Ev.keycountLog (alGet p.display hit hit) (alGet p.windows hit p.globalWin)
              (evict (ts - 1000 * ((alGet p.windows hit p.globalWin : ℕ) : ℤ))
                (alGet st.windowHits hit [] ++ [ts])).length
              (alGet p.thresholds hit p.globalThr)
          :: (if st.logOpen then
                [Ev.recordLine cn (alGet p.display hit hit) nick (elapsedOf b ts) mt]
              else [])
        else [Ev.saveAttempt (alSet st.counts hit (alGet st.counts hit 0 + 1))]
      else [] := by
  simp only [recordHit]
  split
  · split
    · rfl
    · rfl
  · rfl

/-- C1: for a keyword hit at timestamp `ts` with per-keyword window `W`,
`recordHit` appends `ts` to the keyword's window, evicts exactly the
entries strictly below `ts - W` (boundary ties kept — under the sorted
arrival order the front-eviction loop removes precisely those entries),
takes the window count as the size after eviction, and fires iff that
count reaches the threshold, with no cooldown or de-duplication;
concretely, with `window=15, threshold=2` and hits at `0,10,20,30`, it
fires at `t=20` with count 2 and fires again at `t=30` with count 2. -/
theorem record_hit_window_spec (p : Policy) (cn nick : Str) (b : Option ℚ) (mt hit : Str)
    (ts : ℤ) (st : EngineState)
    (hsorted : (alGet st.windowHits hit [] ++ [ts]).Sorted (· ≤ ·)) :
    (alGet (recordHit p true cn nick b mt hit ts st).1.windowHits hit []
      = (alGet st.windowHits hit [] ++ [ts]).filter
          (fun t => decide (ts - 1000 * ((alGet p.windows hit p.globalWin : ℕ) : ℤ) ≤ t)))
    ∧ (((recordHit p true cn nick b mt hit ts st).2 ≠ [])
        ↔ alGet p.thresholds hit p.globalThr
            ≤ ((alGet st.windowHits hit [] ++ [ts]).filter
                (fun t => decide (ts - 1000 * ((alGet p.windows hit p.globalWin : ℕ) : ℤ) ≤ t))).length)
    ∧ runHitsTrace winPolicyThr2 (strCodes "win") (initEngine [strCodes "win"] []) [0, 10000, 20000, 30000]
      = [(1, false), (2, true), (2, true), (2, true)] := by
  have hev := evict_eq_filter (ts - 1000 * ((alGet p.windows hit p.globalWin : ℕ) : ℤ))
    (alGet st.windowHits hit [] ++ [ts]) hsorted
  refine ⟨?_, ?_, by decide⟩
  · rw [recordHit_fst]
    simp only [alGet_alSet_self]
    exact hev
  · rw [recordHit_events, ← hev]
    by_cases h1 : alGet p.thresholds hit p.globalThr
        ≤ (evict (ts - 1000 * ((alGet p.windows hit p.globalWin : ℕ) : ℤ))
            (alGet st.windowHits hit [] ++ [ts])).length
    · simp [h1]
    · simp [h1]

/-- C1 witness: the sliding-window characterization applied to the hit at
`t=20` of the specification's example. -/
theorem record_hit_window_spec_witness :
    ((alGet (initEngine [strCodes "win"] []).windowHits (strCodes "win") [] ++ [(20000 : ℤ)]).Sorted (· ≤ ·))
    ∧ alGet (recordHit winPolicyThr2 true (strCodes "chan") (strCodes "nick") none (strCodes "m")
          (strCodes "win") 20000 (initEngine [strCodes "win"] [])).1.windowHits (strCodes "win") []
        = (alGet (initEngine [strCodes "win"] []).windowHits (strCodes "win") [] ++ [(20000 : ℤ)]).filter
            (fun t => decide ((20000 : ℤ)
                - 1000 * ((alGet winPolicyThr2.windows (strCodes "win") winPolicyThr2.globalWin : ℕ) : ℤ) ≤ t)) :=
  ⟨by decide,
   (record_hit_window_spec winPolicyThr2 (strCodes "chan") (strCodes "nick") none (strCodes "m")
      (strCodes "win") 20000 (initEngine [strCodes "win"] []) (by decide)).1⟩

/-- C4: the cumulative count is incremented unconditionally on every
recorded hit, is monotonically non-decreasing over any sequence of hits,
and survives a restart: seeding the stored count of `win` to 5 and
recording one more (threshold-reaching) hit hands the counts store the
full map with value 6, which sanitizes to a persisted value of 6. -/
theorem cumulative_count_spec :
    (∀ (p : Policy) (so : Bool) (cn nick : Str) (b : Option ℚ) (mt hit : Str) (ts : ℤ)
        (st : EngineState),
        alGet (recordHit p so cn nick b mt hit ts st).1.counts hit 0 = alGet st.counts hit 0 + 1)
    ∧ (∀ (p : Policy) (cn nick : Str) (b : Option ℚ) (mt : Str) (st : EngineState)
        (l : List (Str × ℤ × Bool)) (k : Str),
        alGet st.counts k 0 ≤ alGet (runHitsSeq p cn nick b mt st l).counts k 0)
    ∧ (alGet (initEngine [strCodes "win"] [(strCodes "win", 5)]).counts (strCodes "win") 0 = 5
      ∧ (recordHit winPolicyThr1 true (strCodes "chan") (strCodes "nick") none (strCodes "hi win")
          (strCodes "win") 100000 (initEngine [strCodes "win"] [(strCodes "win", 5)])).2.head?
          = some (Ev.saveAttempt [(strCodes "win", 6)])
      ∧ alGet (sanitize_counts (countsNatToPVal [(strCodes "win", 6)])) (strCodes "win") 0 = 6) := by
  refine ⟨?_, ?_, by decide, by decide, by decide⟩
  · intro p so cn nick b mt hit ts st
    rw [recordHit_fst]
    simp only [alGet_alSet_self]
  · intro p cn nick b mt st l k
    induction l generalizing st with
    | nil => exact le_refl _
    | cons h t ih =>
      obtain ⟨hit, ts, so⟩ := h
      refine le_trans ?_ (ih (recordHit p so cn nick b mt hit ts st).1)
      rw [recordHit_fst]
      by_cases hk : hit = k
      · subst hk
        simp only [alGet_alSet_self]
        exact Nat.le_succ _
      · simp only [alGet_alSet_ne _ _ _ _ _ hk]
        exact le_refl _

/-- C5 counterexample: after a reconnect (`connect()` during the receive
loop) the `windowHits` deque of the keyword `win` is NOT reset to empty —
`connect` never touches `keyword_hits_window`, so the pre-failure entry
survives, refuting "windowHits resets to empty on the new session
start". -/
theorem reconnect_counterexample :
    alGet (connectFn sampleFresh sampleSession).eng.windowHits (strCodes "win") [] = [3]
    ∧ ([3] : List ℤ) ≠ [] := by
  exact ⟨by decide, by decide⟩

/-- C5 (amended): after a receive failure in the Live state the session
reconnects and resumes without losing the keyword policy, the cumulative
counts, or the window deques — the whole engine state, `windowHits`
included, is unchanged by the reconnect — while the connection-scoped
fields (chat-connection id, tokens, session id, socket, broadcast start)
are replaced wholesale by fresh values. -/
theorem reconnect_frame_spec (f : FreshConn) (s : SessionSt) (fr : Frame)
    (rest : List (Bool × RecvR)) :
    (connectFn f s).eng = s.eng
    ∧ (connectFn f s).policy = s.policy
    ∧ (connectFn f s).stop = s.stop
    ∧ (connectFn f s).channelName = s.channelName
    ∧ (connectFn f s).chatChannelId = f.cid
    ∧ (connectFn f s).accessToken = f.accTkn
    ∧ (connectFn f s).extraToken = f.extraTkn
    ∧ (connectFn f s).sid = f.sid
    ∧ (connectFn f s).sockConnected = true
    ∧ (connectFn f s).broadcastStart = f.bstart
    ∧ (s.stop = false →
        loopRun f s ((false, .errR) :: (false, .ok fr) :: rest)
          = Ev.connectAttempt ::
            ((processFrame f (connectFn f s) fr).2
              ++ loopRun f (processFrame f (connectFn f s) fr).1 rest)) := by
  refine ⟨rfl, rfl, rfl, rfl, rfl, rfl, rfl, rfl, rfl, rfl, fun h => ?_⟩
  simp [loopRun, h, connectFn]

/-- C5 witness: the resumption equation at a concrete live session. -/
theorem reconnect_frame_spec_witness :
    sampleSession.stop = false
    ∧ loopRun sampleFresh sampleSession ((false, .errR) :: (false, .ok .other) :: [])
        = Ev.connectAttempt ::
          ((processFrame sampleFresh (connectFn sampleFresh sampleSession) .other).2
            ++ loopRun sampleFresh
                (processFrame sampleFresh (connectFn sampleFresh sampleSession) .other).1 []) :=
  ⟨rfl, (reconnect_frame_spec sampleFresh sampleSession .other []).2.2.2.2.2.2.2.2.2.2 rfl⟩

/-- C6 counterexample: on a firing hit whose `save_counts` raises, the
exception is swallowed by `except Exception: pass` — the emitted effects
are exactly the attempted save, with no system-log line of any kind,
refuting "the engine logs and continues". -/
theorem record_failure_counterexample :
    (recordHit winPolicyThr1 false (strCodes "chan") (strCodes "nick") none (strCodes "hi win")
        (strCodes "win") 0 (initEngine [strCodes "win"] [])).2
      = [Ev.saveAttempt [(strCodes "win", 1)]]
    ∧ ∀ e ∈ (recordHit winPolicyThr1 false (strCodes "chan") (strCodes "nick") none
        (strCodes "hi win") (strCodes "win") 0 (initEngine [strCodes "win"] [])).2,
        e.isLogLine = false := by
  exact ⟨by decide, by decide⟩

/-- C6 (amended): an exception while recording a hit (e.g. a persistence
failure in `save_counts`) does not abort message processing: the mutated
state is identical whether or not the save succeeds (the cumulative
increment and the window update are not rolled back), nothing is written
to the system log by the handler (the exception is silently swallowed by
`except Exception: pass`), and the hit sequence continues from the mutated
state. -/
theorem record_failure_spec (p : Policy) (cn nick : Str) (b : Option ℚ) (mt hit : Str)
    (ts : ℤ) (st : EngineState) (l : List (Str × ℤ × Bool)) :
    (recordHit p false cn nick b mt hit ts st).1 = (recordHit p true cn nick b mt hit ts st).1
    ∧ alGet (recordHit p false cn nick b mt hit ts st).1.counts hit 0 = alGet st.counts hit 0 + 1
    ∧ (recordHit p false cn nick b mt hit ts st).2.all (fun e => !e.isLogLine) = true
    ∧ runHitsSeq p cn nick b mt st ((hit, ts, false) :: l)
        = runHitsSeq p cn nick b mt (recordHit p false cn nick b mt hit ts st).1 l := by
  refine ⟨?_, ?_, ?_, rfl⟩
  · rw [recordHit_fst, recordHit_fst]
  · rw [recordHit_fst]
    simp only [alGet_alSet_self]
  · rw [recordHit_events]
    by_cases h1 : alGet p.thresholds hit p.globalThr
        ≤ (evict (ts - 1000 * ((alGet p.windows hit p.globalWin : ℕ) : ℤ))
            (alGet st.windowHits hit [] ++ [ts])).length
    · simp [h1, Ev.isLogLine]
    · simp [h1]

/-- C7: whenever the post-eviction window count reaches the keyword's
threshold, the engine emits — in this order — one synchronous persistence
of the full cumulative-count map (a full-map overwrite: the saved map is
the whole updated counts map, and every other keyword's entry is carried
over unchanged), then exactly one `[KEYCOUNT]` system-log line reporting
the keyword, window seconds, window count and threshold, then exactly one
detection-record line; below the threshold nothing is emitted. -/
theorem threshold_fire_spec (p : Policy) (cn nick : Str) (b : Option ℚ) (mt hit : Str)
    (ts : ℤ) (st : EngineState) :
    ((recordHit p true cn nick b mt hit ts st).2
      = if alGet p.thresholds hit p.globalThr
            ≤ (evict (ts - 1000 * ((alGet p.windows hit p.globalWin : ℕ) : ℤ))
                (alGet st.windowHits hit [] ++ [ts])).length
        then
          Ev.saveAttempt (alSet st.counts hit (alGet st.counts hit 0 + 1))
          :: Ev.keycountLog (alGet p.display hit hit) (alGet p.windows hit p.globalWin)
              (evict (ts - 1000 * ((alGet p.windows hit p.globalWin : ℕ) : ℤ))
                (alGet st.windowHits hit [] ++ [ts])).length
              (alGet p.thresholds hit p.globalThr)
          :: (if st.logOpen then
                [Ev.recordLine cn (alGet p.display hit hit) nick (elapsedOf b ts) mt]
              else [])
        else [])
    ∧ (∀ k, k ≠ hit →
        alGet (alSet st.counts hit (alGet st.counts hit 0 + 1)) k 0 = alGet st.counts k 0) := by
  refine ⟨?_, fun k hk => alGet_alSet_ne _ _ _ _ _ (fun he => hk he.symm)⟩
  rw [recordHit_events]
  by_cases h1 : alGet p.thresholds hit p.globalThr
      ≤ (evict (ts - 1000 * ((alGet p.windows hit p.globalWin : ℕ) : ℤ))
          (alGet st.windowHits hit [] ++ [ts])).length
  · simp [h1]
  · simp [h1]

/-- C7 witness: the unrelated keyword `other` keeps its value in the
persisted full map. -/
theorem threshold_fire_spec_witness :
    (strCodes "other" ≠ strCodes "win")
    ∧ alGet (alSet (initEngine [strCodes "win"] []).counts (strCodes "win")
          (alGet (initEngine [strCodes "win"] []).counts (strCodes "win") 0 + 1))
        (strCodes "other") 0
      = alGet (initEngine [strCodes "win"] []).counts (strCodes "other") 0 :=
  ⟨by decide,
   (threshold_fire_spec winPolicyThr1 (strCodes "chan") (strCodes "nick") none (strCodes "m")
      (strCodes "win") 0 (initEngine [strCodes "win"] [])).2 (strCodes "other") (by decide)⟩

theorem isWordCode_toLowerCode (c : Nat) : isWordCode (toLowerCode c) = isWordCode c := by
  unfold toLowerCode
  by_cases h : 65 ≤ c ∧ c ≤ 90
  · rw [if_pos h]
    have h1 : isWordCode (c + 32) = true := by
      simp only [isWordCode, Bool.or_eq_true, Bool.and_eq_true, decide_eq_true_eq, beq_iff_eq]
      omega
    have h2 : isWordCode c = true := by
      simp only [isWordCode, Bool.or_eq_true, Bool.and_eq_true, decide_eq_true_eq, beq_iff_eq]
      omega
    rw [h1, h2]
  · rw [if_neg h]

theorem isWordCode_eq_of_lower {a b : Nat} (h : toLowerCode a = toLowerCode b) :
    isWordCode a = isWordCode b := by
  rw [← isWordCode_toLowerCode a, ← isWordCode_toLowerCode b, h]

theorem headOkB_congr (l l' : Str) (h : lowerStr l = lowerStr l') : headOkB l = headOkB l' := by
  cases l with
  | nil =>
    cases l' with
    | nil => rfl
    | cons b bs => simp [lowerStr] at h
  | cons a as =>
    cases l' with
    | nil => simp [lowerStr] at h
    | cons b bs =>
      simp only [lowerStr, List.map_cons, List.cons.injEq] at h
      simp [headOkB, isWordCode_eq_of_lower h.1]

theorem boundaryAfter_congr (kw l l' : Str) (h : lowerStr l = lowerStr l') :
    boundaryAfter kw l = boundaryAfter kw l' := by
  unfold boundaryAfter
  apply headOkB_congr
  calc lowerStr (l.drop kw.length) = (lowerStr l).drop kw.length := by
        simp [lowerStr, List.map_drop]
    _ = (lowerStr l').drop kw.length := by rw [h]
    _ = lowerStr (l'.drop kw.length) := by simp [lowerStr, List.map_drop]

theorem exactSearchFrom_congr (kw : Str) (prev prev' : Option Nat) (t t' : Str)
    (hp : prevOkB prev = prevOkB prev') (h : lowerStr t = lowerStr t') :
    exactSearchFrom kw prev t = exactSearchFrom kw prev' t' := by
  induction t generalizing prev prev' t' with
  | nil =>
    have ht' : t' = [] := by
      cases t' with
      | nil => rfl
      | cons b bs => simp [lowerStr] at h
    subst ht'
    simp [exactSearchFrom, hp]
  | cons c cs ih =>
    cases t' with
    | nil => simp [lowerStr] at h
    | cons c' cs' =>
      simp only [lowerStr, List.map_cons, List.cons.injEq] at h
      obtain ⟨hc, hcs⟩ := h
      have hlow : lowerStr (c :: cs) = lowerStr (c' :: cs') := by
        simp [lowerStr, hc, hcs]
      have hmatch : matchAt kw (c :: cs) = matchAt kw (c' :: cs') := by
        unfold matchAt
        rw [hlow]
      have hba : boundaryAfter kw (c :: cs) = boundaryAfter kw (c' :: cs') :=
        boundaryAfter_congr kw _ _ hlow
      have hprevc : prevOkB (some c) = prevOkB (some c') := by
        simp [prevOkB, isWordCode_eq_of_lower hc]
      simp only [exactSearchFrom, hp, hmatch, hba, ih (some c) (some c') cs' hprevc hcs]

theorem isPrefixCodes_iff (kw s : Str) : isPrefixCodes kw s = true ↔ kw <+: s := by
  induction kw generalizing s with
  | nil => simp [isPrefixCodes]
  | cons a as ih =>
    cases s with
    | nil => simp [isPrefixCodes]
    | cons b bs =>
      rw [show isPrefixCodes (a :: as) (b :: bs) = (a == b && isPrefixCodes as bs) from rfl,
        List.cons_prefix_cons, Bool.and_eq_true, beq_iff_eq, ih]

theorem isSubstrCodes_iff (kw s : Str) : isSubstrCodes kw s = true ↔ kw <:+: s := by
  induction s with
  | nil =>
    cases kw with
    | nil => simp [isSubstrCodes, isPrefixCodes]
    | cons a as => simp [isSubstrCodes, isPrefixCodes]
  | cons b bs ih =>
    rw [show isSubstrCodes kw (b :: bs) = (isPrefixCodes kw (b :: bs) || isSubstrCodes kw bs)
        from rfl,
      List.infix_cons_iff, Bool.or_eq_true, isPrefixCodes_iff, ih]

theorem matchAt_iff (kw t : Str) :
    matchAt kw t = true ↔ ∃ mid post, t = mid ++ post ∧ lowerStr mid = kw := by
  unfold matchAt
  rw [isPrefixCodes_iff]
  constructor
  · rintro ⟨rest, hrest⟩
    refine ⟨t.take kw.length, t.drop kw.length, (List.take_append_drop _ _).symm, ?_⟩
    have hmt : lowerStr (t.take kw.length) = (lowerStr t).take kw.length := by
      simp [lowerStr, List.map_take]
    rw [hmt, ← hrest, List.take_left]
  · rintro ⟨mid, post, rfl, hmid⟩
    refine ⟨lowerStr post, ?_⟩
    simp only [lowerStr, List.map_append]
    rw [show List.map toLowerCode mid = kw from hmid]

theorem lastOpt_cons (prev : Option Nat) (c : Nat) (pre : Str) :
    lastOpt prev (c :: pre) = lastOpt (some c) pre := by
  cases pre with
  | nil => rfl
  | cons q qs =>
    unfold lastOpt
    rw [List.getLast?_cons_cons]
    cases hq : (q :: qs).getLast? with
    | none =>
      rw [List.getLast?_eq_none_iff] at hq
      cases hq
    | some x => rfl

theorem exactSearchFrom_iff (kw : Str) (prev : Option Nat) (t : Str) :
    exactSearchFrom kw prev t = true ↔
      ∃ pre mid post, t = pre ++ mid ++ post ∧ lowerStr mid = kw ∧
        prevOkB (lastOpt prev pre) = true ∧ headOkB post = true := by
  induction t generalizing prev with
  | nil =>
    simp only [exactSearchFrom, Bool.and_eq_true]
    constructor
    · rintro ⟨⟨hprev, hmat⟩, hba⟩
      have hkw : kw = [] := by
        cases kw with
        | nil => rfl
        | cons a as => simp [matchAt, lowerStr, isPrefixCodes] at hmat
      subst hkw
      exact ⟨[], [], [], rfl, rfl, by simpa [lastOpt] using hprev, rfl⟩
    · rintro ⟨pre, mid, post, heq, hmid, hprev, hpost⟩
      obtain ⟨hpm, hpost'⟩ := List.append_eq_nil.mp heq.symm
      obtain ⟨hpre, hmid'⟩ := List.append_eq_nil.mp hpm
      subst hpre
      subst hmid'
      subst hpost'
      have hkw : kw = [] := by simpa [lowerStr] using hmid.symm
      subst hkw
      refine ⟨⟨by simpa [lastOpt] using hprev, ?_⟩, ?_⟩
      · simp [matchAt, lowerStr, isPrefixCodes]
      · simp [boundaryAfter, headOkB]
  | cons c cs ih =>
    constructor
    · intro h
      have h' : (prevOkB prev && matchAt kw (c :: cs) && boundaryAfter kw (c :: cs)) = true
          ∨ exactSearchFrom kw (some c) cs = true := by
        simpa [exactSearchFrom] using h
      rcases h' with h1 | h2
      · obtain ⟨⟨hprev, hmat⟩, hba⟩ := by simpa only [Bool.and_eq_true] using h1
        obtain ⟨mid, post, heq, hmid⟩ := (matchAt_iff kw (c :: cs)).mp hmat
        have hlen : mid.length = kw.length := by
          rw [← hmid]
          simp [lowerStr]
        refine ⟨[], mid, post, by simpa using heq, hmid, by simpa [lastOpt] using hprev, ?_⟩
        rw [boundaryAfter, heq, ← hlen, List.drop_left] at hba
        exact hba
      · obtain ⟨pre, mid, post, heq, hmid, hprev, hpost⟩ := (ih (some c)).mp h2
        refine ⟨c :: pre, mid, post, by simp [heq], hmid, ?_, hpost⟩
        rwa [lastOpt_cons]
    · rintro ⟨pre, mid, post, heq, hmid, hprev, hpost⟩
      cases pre with
      | nil =>
        simp only [List.nil_append] at heq
        have hlen : mid.length = kw.length := by
          rw [← hmid]
          simp [lowerStr]
        simp only [exactSearchFrom, Bool.or_eq_true, Bool.and_eq_true]
        left
        refine ⟨⟨by simpa [lastOpt] using hprev, ?_⟩, ?_⟩
        · exact (matchAt_iff kw (c :: cs)).mpr ⟨mid, post, heq, hmid⟩
        · rw [boundaryAfter, heq, ← hlen, List.drop_left]
          exact hpost
      | cons p ps =>
        have hcp : c = p ∧ cs = ps ++ mid ++ post := by
          simpa using heq
        obtain ⟨rfl, hcs⟩ := hcp
        simp only [exactSearchFrom, Bool.or_eq_true]
        right
        refine (ih (some c)).mpr ⟨ps, mid, post, hcs, hmid, ?_, hpost⟩
        rwa [lastOpt_cons] at hprev

theorem exactMatch_iff (kw t : Str) : exactMatch kw t = true ↔ ExactOccurrence kw t := by
  unfold exactMatch ExactOccurrence
  exact exactSearchFrom_iff kw none t

/-- C3: keyword matching is case-insensitive in both modes — the match
outcome depends only on the case-folded message (and registration folds
the keyword itself, so `WIN` and `win` register identically) — an
Exact-mode rule matches exactly when its keyword occurs as a
word-boundary-delimited token, a Contains-mode rule exactly when its
keyword occurs as a raw substring of the lowercased message; in
particular exact `win` matches `we win now` but not `winner`, and
contains `pizza` matches `pizzaparty`. -/
theorem keyword_matching_spec :
    (∀ kw t t', lowerStr t = lowerStr t' →
        exactMatch kw t = exactMatch kw t' ∧ containsMatch kw t = containsMatch kw t')
    ∧ registerKeyword (strCodes "WIN") = registerKeyword (strCodes "win")
    ∧ (∀ kw t, exactMatch kw t = true ↔ ExactOccurrence kw t)
    ∧ (∀ kw t, containsMatch kw t = true ↔ kw <:+: lowerStr t)
    ∧ exactMatch (strCodes "win") (strCodes "we win now") = true
    ∧ exactMatch (strCodes "win") (strCodes "we WIN now") = true
    ∧ exactMatch (strCodes "win") (strCodes "winner") = false
    ∧ containsMatch (strCodes "pizza") (strCodes "pizzaparty") = true := by
  refine ⟨fun kw t t' h => ⟨exactSearchFrom_congr kw none none t t' rfl h, ?_⟩,
    by decide, exactMatch_iff, fun kw t => isSubstrCodes_iff kw (lowerStr t),
    by decide, by decide, by decide, by decide⟩
  unfold containsMatch
  rw [h]

/-- C3 witness: message-side case-insensitivity applied to the
specification's `WIN`/`win` example. -/
theorem keyword_matching_spec_witness :
    lowerStr (strCodes "we WIN now") = lowerStr (strCodes "we win now")
    ∧ exactMatch (strCodes "win") (strCodes "we WIN now")
        = exactMatch (strCodes "win") (strCodes "we win now")
    ∧ containsMatch (strCodes "win") (strCodes "we WIN now")
        = containsMatch (strCodes "win") (strCodes "we win now") :=
  ⟨by decide,
   (keyword_matching_spec.1 (strCodes "win") (strCodes "we WIN now") (strCodes "we win now")
      (by decide)).1,
   (keyword_matching_spec.1 (strCodes "win") (strCodes "we WIN now") (strCodes "we win now")
      (by decide)).2⟩

theorem dropWhile_head?_false (p : Nat → Bool) (l : Str) :
    ∀ c, (l.dropWhile p).head? = some c → p c = false := by
  induction l with
  | nil => intro c h; simp at h
  | cons a as ih =>
    intro c h
    by_cases hp : p a
    · rw [List.dropWhile_cons_of_pos hp] at h
      exact ih c h
    · rw [List.dropWhile_cons_of_neg hp] at h
      obtain rfl : a = c := by simpa using h
      simpa using hp

theorem dropWhile_eq_self_of_head? (p : Nat → Bool) (l : Str)
    (h : ∀ c, l.head? = some c → p c = false) : l.dropWhile p = l := by
  cases l with
  | nil => rfl
  | cons a as =>
    have := h a (by simp)
    rw [List.dropWhile_cons_of_neg (by simp [this])]

theorem getLast?_dropWhile (p : Nat → Bool) (l : Str) (h : l.dropWhile p ≠ []) :
    (l.dropWhile p).getLast? = l.getLast? := by
  induction l with
  | nil => simp at h
  | cons a as ih =>
    by_cases hp : p a
    · rw [List.dropWhile_cons_of_pos hp] at h ⊢
      have has : as ≠ [] := by
        intro hnil
        rw [hnil] at h
        simp at h
      obtain ⟨x, xs, rfl⟩ := List.exists_cons_of_ne_nil has
      rw [ih h, List.getLast?_cons_cons]
    · rw [List.dropWhile_cons_of_neg hp]

theorem stripCodes_head?_false (s : Str) :
    ∀ c, (stripCodes s).head? = some c → isSpaceCode c = false := by
  intro c h
  unfold stripCodes at h
  rw [List.head?_reverse] at h
  by_cases hb : ((s.dropWhile isSpaceCode).reverse.dropWhile isSpaceCode) = []
  · rw [hb] at h
    simp at h
  · rw [getLast?_dropWhile _ _ hb, List.getLast?_reverse] at h
    exact dropWhile_head?_false isSpaceCode s c h

theorem stripCodes_getLast?_false (s : Str) :
    ∀ c, (stripCodes s).getLast? = some c → isSpaceCode c = false := by
  intro c h
  unfold stripCodes at h
  rw [List.getLast?_reverse] at h
  exact dropWhile_head?_false isSpaceCode _ c h

theorem stripCodes_idem (s : Str) : stripCodes (stripCodes s) = stripCodes s := by
  have h1 : (stripCodes s).dropWhile isSpaceCode = stripCodes s :=
    dropWhile_eq_self_of_head? _ _ (stripCodes_head?_false s)
  have h2 : (stripCodes s).reverse.dropWhile isSpaceCode = (stripCodes s).reverse := by
    apply dropWhile_eq_self_of_head?
    intro c hc
    rw [List.head?_reverse] at hc
    exact stripCodes_getLast?_false s c hc
  show (((stripCodes s).dropWhile isSpaceCode).reverse.dropWhile isSpaceCode).reverse
      = stripCodes s
  rw [h1, h2, List.reverse_reverse]

theorem mem_alSet {α : Type} (m : List (Str × α)) (k : Str) (v : α) :
    ∀ kv ∈ alSet m k v, kv ∈ m ∨ kv = (k, v) := by
  induction m with
  | nil => intro kv hkv; simp [alSet] at hkv; right; exact hkv
  | cons kv₀ rest ih =>
    obtain ⟨k₀, v₀⟩ := kv₀
    intro kv hkv
    by_cases h : k₀ = k
    · simp only [alSet, if_pos h] at hkv
      rcases List.mem_cons.mp hkv with rfl | hm
      · right; rfl
      · left; exact List.mem_cons_of_mem _ hm
    · simp only [alSet, if_neg h] at hkv
      rcases List.mem_cons.mp hkv with rfl | hm
      · left; exact List.mem_cons_self _ _
      · rcases ih kv hm with h' | h'
        · left; exact List.mem_cons_of_mem _ h'
        · right; exact h'

theorem keys_alSet {α : Type} (m : List (Str × α)) (k : Str) (v : α) :
    (alSet m k v).map Prod.fst
      = if k ∈ m.map Prod.fst then m.map Prod.fst else m.map Prod.fst ++ [k] := by
  induction m with
  | nil => simp [alSet]
  | cons kv₀ rest ih =>
    obtain ⟨k₀, v₀⟩ := kv₀
    by_cases h : k₀ = k
    · subst h
      simp [alSet]
    · simp only [alSet, if_neg h, List.map_cons, ih]
      have hne : ¬ (k = k₀) := fun he => h he.symm
      by_cases hm : k ∈ rest.map Prod.fst
      · simp [hm, hne]
      · simp [hm, hne]

theorem alSet_append_of_not_mem {α : Type} (m : List (Str × α)) (k : Str) (v : α)
    (h : k ∉ m.map Prod.fst) : alSet m k v = m ++ [(k, v)] := by
  induction m with
  | nil => rfl
  | cons kv₀ rest ih =>
    obtain ⟨k₀, v₀⟩ := kv₀
    simp only [List.map_cons, List.mem_cons] at h
    push_neg at h
    obtain ⟨h1, h2⟩ := h
    have hne : ¬ k₀ = k := fun he => h1 he.symm
    simp only [alSet, if_neg hne, List.cons_append]
    rw [ih h2]

theorem ensure_positive_int_vint (n : ℤ) (d : ℤ) (h : 1 ≤ n) :
    ensure_positive_int (.vint n) d = n := by
  simp [ensure_positive_int, pyToInt, h]

theorem ensure_positive_int_ge_one (v : PVal) (d : ℤ) (hd : 1 ≤ d) :
    1 ≤ ensure_positive_int v d := by
  unfold ensure_positive_int
  cases h : pyToInt v with
  | none => exact hd
  | some i =>
    by_cases hi : 1 ≤ i
    · simp only [if_pos hi]
      exact hi
    · simp only [if_neg hi]
      exact hd

theorem sanitizeKeywords_sanitized (v : Option PVal) :
    ∀ k ∈ sanitizeKeywords v, StrSanitized k := by
  intro k hk
  unfold sanitizeKeywords at hk
  rcases v with _ | pv
  · simp at hk
  · cases pv with
    | vlist ks =>
      obtain ⟨hmem, hne⟩ := List.mem_filter.mp hk
      obtain ⟨x, _, rfl⟩ := List.mem_map.mp hmem
      refine ⟨stripCodes_idem _, ?_⟩
      intro hnil
      rw [hnil] at hne
      simp at hne
    | vstr s =>
      obtain ⟨hmem, hne⟩ := List.mem_filter.mp hk
      obtain ⟨x, _, rfl⟩ := List.mem_map.mp hmem
      refine ⟨stripCodes_idem _, ?_⟩
      intro hnil
      rw [hnil] at hne
      simp at hne
    | vint n => simp at hk
    | vnone => simp at hk
    | vdict es => simp at hk

theorem sanitizeKeywords_fix (ks : List Str) (h : ∀ k ∈ ks, StrSanitized k) :
    sanitizeKeywords (some (.vlist (ks.map .vstr))) = ks := by
  show (List.filter (fun s => !s.isEmpty)
    (List.map (fun k => stripCodes (pyStr k)) (List.map PVal.vstr ks))) = ks
  rw [List.map_map]
  have hmap : ks.map ((fun k => stripCodes (pyStr k)) ∘ PVal.vstr) = ks := by
    rw [show ks = ks.map id from (List.map_id ks).symm]
    rw [List.map_map]
    apply List.map_congr_left
    intro a ha
    simpa using (h a ha).1
  rw [hmap]
  rw [List.filter_eq_self]
  intro a ha
  have := (h a ha).2
  simpa using this

theorem sanitizeGlobal_ge_one (v : Option PVal) (d : ℤ) (hd : 1 ≤ d) :
    ∀ n, sanitizeGlobal v d = some n → 1 ≤ n := by
  intro n h
  rcases v with _ | pv
  · simp [sanitizeGlobal] at h
  · cases pv with
    | vnone => simp [sanitizeGlobal] at h
    | vstr s =>
      simp only [sanitizeGlobal, Option.some.injEq] at h
      exact h ▸ ensure_positive_int_ge_one _ _ hd
    | vint m =>
      simp only [sanitizeGlobal, Option.some.injEq] at h
      exact h ▸ ensure_positive_int_ge_one _ _ hd
    | vlist xs =>
      simp only [sanitizeGlobal, Option.some.injEq] at h
      exact h ▸ ensure_positive_int_ge_one _ _ hd
    | vdict es =>
      simp only [sanitizeGlobal, Option.some.injEq] at h
      exact h ▸ ensure_positive_int_ge_one _ _ hd

theorem sanitizeGlobal_fix (o : Option ℤ) (d : ℤ) (h : ∀ n, o = some n → 1 ≤ n) :
    sanitizeGlobal (some (optIntToPVal o)) d = o := by
  cases o with
  | none => rfl
  | some n =>
    have h1 := h n rfl
    show sanitizeGlobal (some (.vint n)) d = some n
    simp [sanitizeGlobal, ensure_positive_int_vint n d h1]

theorem IntMapSanitized_alSet (m : List (Str × ℤ)) (k : Str) (v : ℤ)
    (hm : IntMapSanitized m) (hk : StrSanitized k) (hv : 1 ≤ v) :
    IntMapSanitized (alSet m k v) := by
  obtain ⟨hent, hnd⟩ := hm
  constructor
  · intro kv hkv
    rcases mem_alSet m k v kv hkv with h | rfl
    · exact hent kv h
    · exact ⟨hk, hv⟩
  · rw [keys_alSet]
    by_cases hmem : k ∈ m.map Prod.fst
    · simpa [hmem] using hnd
    · simp only [if_neg hmem]
      rw [List.nodup_append]
      refine ⟨hnd, List.nodup_singleton _, ?_⟩
      intro a ha hak
      rw [List.mem_singleton.mp hak] at ha
      exact hmem ha

theorem sanitizeIntMap_sanitized (v : Option PVal) (d : ℤ) (hd : 1 ≤ d) :
    IntMapSanitized (sanitizeIntMap v d) := by
  have hnil : IntMapSanitized ([] : List (Str × ℤ)) := by
    constructor
    · intro kv hkv
      simp at hkv
    · simp
  have key : ∀ (es : List (Str × PVal)) (acc : List (Str × ℤ)), IntMapSanitized acc →
      IntMapSanitized (es.foldl (fun m kv =>
        if (stripCodes kv.1).isEmpty then m
        else alSet m (stripCodes kv.1) (ensure_positive_int kv.2 d)) acc) := by
    intro es
    induction es with
    | nil => intro acc h; exact h
    | cons kv rest ih =>
      intro acc hacc
      rw [List.foldl_cons]
      apply ih
      by_cases he : (stripCodes kv.1).isEmpty
      · simpa [he] using hacc
      · simp only [he, Bool.false_eq_true, if_false]
        refine IntMapSanitized_alSet _ _ _ hacc ⟨stripCodes_idem _, ?_⟩
          (ensure_positive_int_ge_one _ _ hd)
        intro hnil'
        rw [hnil'] at he
        simp at he
  rcases v with _ | pv
  · exact hnil
  · cases pv with
    | vdict es => exact key es [] hnil
    | vstr s => exact hnil
    | vint n => exact hnil
    | vnone => exact hnil
    | vlist xs => exact hnil

theorem sanitizeIntMap_fix (m : List (Str × ℤ)) (d : ℤ) (h : IntMapSanitized m) :
    sanitizeIntMap (some (.vdict (m.map (fun kv => (kv.1, PVal.vint kv.2))))) d = m := by
  obtain ⟨hs, hnd⟩ := h
  have key : ∀ (m' : List (Str × ℤ)) (acc : List (Str × ℤ)),
      (∀ kv ∈ m', StrSanitized kv.1 ∧ 1 ≤ kv.2) → (m'.map Prod.fst).Nodup →
      (∀ kv ∈ m', kv.1 ∉ acc.map Prod.fst) →
      ((m'.map (fun kv => (kv.1, PVal.vint kv.2))).foldl (fun mm kv =>
        if (stripCodes kv.1).isEmpty then mm
        else alSet mm (stripCodes kv.1) (ensure_positive_int kv.2 d)) acc) = acc ++ m' := by
    intro m'
    induction m' with
    | nil =>
      intro acc _ _ _
      simp
    | cons kv rest ih =>
      obtain ⟨k, v⟩ := kv
      intro acc hsan hnodup hdisj
      obtain ⟨⟨hkstrip, hkne⟩, hkv⟩ := hsan (k, v) (List.mem_cons_self _ _)
      have hni : k.isEmpty = false := by
        simpa [List.isEmpty_iff] using hkne
      simp only [List.map_cons, List.foldl_cons, hkstrip, hni, Bool.false_eq_true, if_false]
      have hnodup' := hnodup
      rw [List.map_cons, List.nodup_cons] at hnodup'
      rw [ensure_positive_int_vint v d hkv,
        alSet_append_of_not_mem acc k v (hdisj (k, v) (List.mem_cons_self _ _))]
      rw [ih (acc ++ [(k, v)]) (fun kv hkv' => hsan kv (List.mem_cons_of_mem _ hkv'))
        hnodup'.2 ?hdisj']
      · simp
      case hdisj' =>
        intro kv' hkv'
        simp only [List.map_append, List.mem_append, List.map_cons]
        push_neg
        constructor
        · exact hdisj kv' (List.mem_cons_of_mem _ hkv')
        · intro hk'
          have hke : kv'.1 = k := by simpa using hk'
          have hm : kv'.1 ∈ rest.map Prod.fst := List.mem_map_of_mem Prod.fst hkv'
          rw [hke] at hm
          exact hnodup'.1 hm
  show (m.map (fun kv => (kv.1, PVal.vint kv.2))).foldl (fun mm kv =>
      if (stripCodes kv.1).isEmpty then mm
      else alSet mm (stripCodes kv.1) (ensure_positive_int kv.2 d)) [] = m
  rw [key m [] hs hnd (by simp)]
  simp

theorem dictGetD_centry_keyword (kw : Str) (t w : ℤ) :
    dictGetD [(strCodes "keyword", PVal.vstr kw), (strCodes "threshold", PVal.vint t),
        (strCodes "window", PVal.vint w)] (strCodes "keyword") (.vstr [])
      = .vstr kw := by rfl

theorem dictGetD_centry_threshold (kw : Str) (t w : ℤ) :
    dictGetD [(strCodes "keyword", PVal.vstr kw), (strCodes "threshold", PVal.vint t),
        (strCodes "window", PVal.vint w)] (strCodes "threshold") (.vint 1)
      = .vint t := by rfl

theorem dictGetD_centry_window (kw : Str) (t w : ℤ) :
    dictGetD [(strCodes "keyword", PVal.vstr kw), (strCodes "threshold", PVal.vint t),
        (strCodes "window", PVal.vint w)] (strCodes "window") (.vint 60)
      = .vint w := by rfl

theorem sanitizeContains_sanitized (items : List PVal) :
    ∀ seen : List Str,
    (∀ e ∈ sanitizeContains items seen, StrSanitized e.keyword ∧ 1 ≤ e.threshold ∧ 1 ≤ e.window)
    ∧ ((sanitizeContains items seen).map (fun e => lowerStr e.keyword)).Nodup
    ∧ (∀ x ∈ (sanitizeContains items seen).map (fun e => lowerStr e.keyword), x ∉ seen) := by
  induction items with
  | nil =>
    intro seen
    refine ⟨?_, ?_, ?_⟩ <;> simp [sanitizeContains]
  | cons item rest ih =>
    intro seen
    cases item with
    | vdict es =>
      by_cases h1 : (stripCodes (pyStr (dictGetD es (strCodes "keyword") (.vstr [])))).isEmpty
      · simpa [sanitizeContains, h1] using ih seen
      · by_cases h2 : lowerStr (stripCodes (pyStr (dictGetD es (strCodes "keyword") (.vstr []))))
            ∈ seen
        · simpa [sanitizeContains, h1, h2] using ih seen
        · obtain ⟨ihs, ihnd, ihseen⟩ :=
            ih (lowerStr (stripCodes (pyStr (dictGetD es (strCodes "keyword") (.vstr []))))
                :: seen)
          rw [show sanitizeContains (PVal.vdict es :: rest) seen
              = { keyword := stripCodes (pyStr (dictGetD es (strCodes "keyword") (.vstr [])))
                  threshold := ensure_positive_int (dictGetD es (strCodes "threshold") (.vint 1)) 1
                  window := ensure_positive_int (dictGetD es (strCodes "window") (.vint 60)) 60 }
                :: sanitizeContains rest
                    (lowerStr (stripCodes (pyStr (dictGetD es (strCodes "keyword") (.vstr []))))
                      :: seen)
            from by simp [sanitizeContains, h1, h2]]
          refine ⟨?_, ?_, ?_⟩
          · intro e he
            rcases List.mem_cons.mp he with rfl | hm
            · refine ⟨⟨stripCodes_idem _, ?_⟩,
                ensure_positive_int_ge_one _ _ (by norm_num),
                ensure_positive_int_ge_one _ _ (by norm_num)⟩
              intro hnil
              have hnil' : stripCodes (pyStr (dictGetD es (strCodes "keyword") (.vstr []))) = [] :=
                hnil
              rw [hnil'] at h1
              simp at h1
            · exact ihs e hm
          · rw [List.map_cons, List.nodup_cons]
            refine ⟨?_, ihnd⟩
            intro hmem
            exact (ihseen _ hmem) (List.mem_cons_self _ _)
          · intro x hx
            rw [List.map_cons] at hx
            rcases List.mem_cons.mp hx with rfl | hm
            · exact h2
            · intro hxs
              exact (ihseen x hm) (List.mem_cons_of_mem _ hxs)
    | vstr s =>
      by_cases h1 : (stripCodes s).isEmpty
      · simpa [sanitizeContains, h1] using ih seen
      · by_cases h2 : lowerStr (stripCodes s) ∈ seen
        · simpa [sanitizeContains, h1, h2] using ih seen
        · obtain ⟨ihs, ihnd, ihseen⟩ := ih (lowerStr (stripCodes s) :: seen)
          rw [show sanitizeContains (PVal.vstr s :: rest) seen
              = { keyword := stripCodes s, threshold := 1, window := 60 }
                :: sanitizeContains rest (lowerStr (stripCodes s) :: seen)
            from by simp [sanitizeContains, h1, h2]]
          refine ⟨?_, ?_, ?_⟩
          · intro e he
            rcases List.mem_cons.mp he with rfl | hm
            · refine ⟨⟨stripCodes_idem _, ?_⟩, by norm_num, by norm_num⟩
              intro hnil
              have hnil' : stripCodes s = [] := hnil
              rw [hnil'] at h1
              simp at h1
            · exact ihs e hm
          · rw [List.map_cons, List.nodup_cons]
            refine ⟨?_, ihnd⟩
            intro hmem
            exact (ihseen _ hmem) (List.mem_cons_self _ _)
          · intro x hx
            rw [List.map_cons] at hx
            rcases List.mem_cons.mp hx with rfl | hm
            · exact h2
            · intro hxs
              exact (ihseen x hm) (List.mem_cons_of_mem _ hxs)
    | vint n => simpa [sanitizeContains] using ih seen
    | vnone => simpa [sanitizeContains] using ih seen
    | vlist xs => simpa [sanitizeContains] using ih seen

theorem sanitizeContains_fix (l : List ContainsEntry) :
    ∀ seen : List Str,
    (∀ e ∈ l, StrSanitized e.keyword ∧ 1 ≤ e.threshold ∧ 1 ≤ e.window) →
    ((l.map (fun e => lowerStr e.keyword)).Nodup) →
    (∀ e ∈ l, lowerStr e.keyword ∉ seen) →
    sanitizeContains (l.map (fun e =>
      PVal.vdict [ (strCodes "keyword", .vstr e.keyword)
                 , (strCodes "threshold", .vint e.threshold)
                 , (strCodes "window", .vint e.window) ])) seen = l := by
  induction l with
  | nil =>
    intro seen _ _ _
    rfl
  | cons e rest ih =>
    intro seen hs hnd hseen
    obtain ⟨⟨hstrip, hne⟩, ht, hw⟩ := hs e (List.mem_cons_self _ _)
    have hnd' := hnd
    rw [List.map_cons, List.nodup_cons] at hnd'
    have e1 : stripCodes (pyStr (dictGetD
        [ (strCodes "keyword", PVal.vstr e.keyword)
        , (strCodes "threshold", PVal.vint e.threshold)
        , (strCodes "window", PVal.vint e.window) ] (strCodes "keyword") (.vstr [])))
        = e.keyword := by
      rw [dictGetD_centry_keyword]
      exact hstrip
    have hc1 : e.keyword.isEmpty = false := by
      simpa [List.isEmpty_iff] using hne
    rw [List.map_cons]
    rw [show sanitizeContains (PVal.vdict
        [ (strCodes "keyword", .vstr e.keyword)
        , (strCodes "threshold", .vint e.threshold)
        , (strCodes "window", .vint e.window) ]
        :: rest.map (fun e => PVal.vdict
            [ (strCodes "keyword", .vstr e.keyword)
            , (strCodes "threshold", .vint e.threshold)
            , (strCodes "window", .vint e.window) ])) seen
      = { keyword := e.keyword
          threshold := ensure_positive_int (.vint e.threshold) 1
          window := ensure_positive_int (.vint e.window) 60 }
        :: sanitizeContains (rest.map (fun e => PVal.vdict
            [ (strCodes "keyword", .vstr e.keyword)
            , (strCodes "threshold", .vint e.threshold)
            , (strCodes "window", .vint e.window) ]))
          (lowerStr e.keyword :: seen)
      from by
        simp only [sanitizeContains, e1, dictGetD_centry_threshold, dictGetD_centry_window,
          hc1, Bool.false_eq_true, if_false]
        rw [if_neg (hseen e (List.mem_cons_self _ _))]]
    rw [ensure_positive_int_vint _ _ ht, ensure_positive_int_vint _ _ hw]
    rw [ih (lowerStr e.keyword :: seen) (fun x hx => hs x (List.mem_cons_of_mem _ hx)) hnd'.2 ?_]
    · intro x hx
      rw [List.mem_cons]
      push_neg
      constructor
      · intro heq
        exact hnd'.1 (heq ▸ List.mem_map_of_mem (fun e => lowerStr e.keyword) hx)
      · exact hseen x (List.mem_cons_of_mem _ hx)

theorem sanitize_config_sanitized (raw : PVal) : ConfigSanitized (sanitize_config raw) := by
  have hcont : ∀ v : Option PVal, ContainsSanitized
      (match v with
       | some (.vlist items) => sanitizeContains items []
       | _ => []) := by
    intro v
    rcases v with _ | pv
    · exact ⟨by simp, by simp⟩
    · cases pv with
      | vlist items =>
        obtain ⟨h1, h2, _⟩ := sanitizeContains_sanitized items []
        exact ⟨h1, h2⟩
      | vstr s => exact ⟨by simp, by simp⟩
      | vint n => exact ⟨by simp, by simp⟩
      | vnone => exact ⟨by simp, by simp⟩
      | vdict es => exact ⟨by simp, by simp⟩
  exact ⟨sanitizeKeywords_sanitized _, sanitizeGlobal_ge_one _ _ (by norm_num),
    sanitizeIntMap_sanitized _ _ (by norm_num), sanitizeGlobal_ge_one _ _ (by norm_num),
    sanitizeIntMap_sanitized _ _ (by norm_num), hcont _⟩

theorem sanitize_config_fix (c : Config) (hc : ConfigSanitized c) :
    sanitize_config (configToPVal c) = c := by
  obtain ⟨hkw, hgt, hmt, hgw, hmw, hct⟩ := hc
  have h1 : sanitize_config (configToPVal c)
      = { keywords := sanitizeKeywords (some (.vlist (c.keywords.map .vstr)))
          global_threshold := sanitizeGlobal (some (optIntToPVal c.global_threshold)) 1
          per_keyword_thresholds := sanitizeIntMap (some (.vdict
              (c.per_keyword_thresholds.map (fun kv => (kv.1, PVal.vint kv.2))))) 1
          global_window := sanitizeGlobal (some (optIntToPVal c.global_window)) 60
          per_keyword_windows := sanitizeIntMap (some (.vdict
              (c.per_keyword_windows.map (fun kv => (kv.1, PVal.vint kv.2))))) 60
          contains_keywords := sanitizeContains (c.contains_keywords.map (fun e =>
              PVal.vdict [ (strCodes "keyword", .vstr e.keyword)
                         , (strCodes "threshold", .vint e.threshold)
                         , (strCodes "window", .vint e.window) ])) [] } := rfl
  rw [h1, sanitizeKeywords_fix _ hkw, sanitizeGlobal_fix _ _ hgt,
    sanitizeIntMap_fix _ _ hmt, sanitizeGlobal_fix _ _ hgw, sanitizeIntMap_fix _ _ hmw,
    sanitizeContains_fix _ [] hct.1 hct.2 (by simp)]

theorem load_data_config (legacy : List (Str × ℤ)) (f : PVal) :
    (load_data legacy f).config = (sanitize_data f).config := by
  unfold load_data
  by_cases h : (sanitize_data f).counts = [] ∧ legacy ≠ []
  · simp [h]
  · simp [h]

theorem sanitize_data_write_config (d : StoreData) :
    (sanitize_data (write_data d)).config
      = sanitize_config (configToPVal (sanitize_config (configToPVal d.config))) := rfl

/-- C10: for every configuration value `c`, `save_config c` followed by
`load_config` returns exactly `_sanitize_config c`; `_sanitize_config` is
idempotent (re-sanitizing its own serialized output is the identity), so
every configuration obtained from the store is already in sanitized form:
keywords are non-empty stripped strings, every threshold/window value is a
positive integer (invalid or sub-1 values replaced by the defaults 1
and 60), and `contains_keywords` entries are de-duplicated by lowercased
keyword with the first occurrence kept. -/
theorem config_roundtrip_spec (legacy : List (Str × ℤ)) (c file : PVal) :
    load_config legacy (save_config legacy c file) = sanitize_config c
    ∧ sanitize_config (configToPVal (sanitize_config c)) = sanitize_config c
    ∧ ConfigSanitized (sanitize_config c) := by
  have hidem : ∀ raw : PVal,
      sanitize_config (configToPVal (sanitize_config raw)) = sanitize_config raw :=
    fun raw => sanitize_config_fix _ (sanitize_config_sanitized raw)
  refine ⟨?_, hidem c, sanitize_config_sanitized c⟩
  unfold load_config save_config
  rw [load_data_config]
  rw [show (sanitize_data (write_data { load_data legacy file with config := sanitize_config c })).config
      = sanitize_config (configToPVal (sanitize_config (configToPVal (sanitize_config c))))
    from sanitize_data_write_config _]
  rw [hidem (configToPVal (sanitize_config c)), hidem c]
